import Mathlib

/-!
# fractus: escape-time fractal renderer

A shallow embedding of `src/wasm/fractus.cpp` and the properties of its row striping,
buffer bookkeeping and pixel colouring.

Conventions of the embedding.

* `uint32_t` values are natural numbers; every 32-bit operation that can wrap is written
  with an explicit `% 4294967296`.
* `double` is idealised as a linearly ordered field `R` with a floor function (exact
  arithmetic, no rounding, no NaN or infinity).  The definitions are generic in `R`: they
  evaluate at `ℚ` and are stated at `ℝ` where the real logarithm is needed.
* The header `fractus.h` is not part of the sources.  Its constants `THREAD_COUNT`,
  `BAILOUT_RADIUS`, `PALETTE_SIZE`, the table `PALETTE` and the library function `log`
  are the fields of the environment `Env`.
* A conversion of a `double` to an unsigned integer type is defined in C++ only when the
  truncated value is representable; an undefined conversion, and a remainder by a zero
  `PALETTE_SIZE`, is `none`.
* Loops whose termination is not evident carry a fuel argument and return `none` when
  the fuel runs out.
* The heap is abstract: an allocation has an identity and a length, `malloc` always
  succeeds with a fresh identity, `free` records the identity it releases.
* A thread is the list of its stores in program order.  The threads of a call run
  concurrently: the stores take effect in any order that merges these lists
  (`Interleaving`), and `applyWrites` gives the memory afterwards.  A store outside the
  block that `draw` returns is undefined behaviour: `runStores` is `none` then.
-/

namespace Fractus

/-- The type `complex_t` of the header: a pair of doubles. -/
structure complex_t (R : Type) where
  real : R
  imag : R

/-- One entry of `PALETTE`: the three channels `color[0]`, `color[1]`, `color[2]`. -/
structure RGB where
  r : Nat
  g : Nat
  b : Nat
deriving DecidableEq

/-- The compile-time constants of `fractus.h` and the library function `log`. -/
structure Env (R : Type) where
  THREAD_COUNT : Nat
  BAILOUT_RADIUS : R
  PALETTE_SIZE : Nat
  PALETTE : Nat → RGB
  log : R → R

/-- The arguments of `draw` (and, with the worker number, of `worker`). -/
structure Args (R : Type) where
  width : Nat
  height : Nat
  maxIterations : Nat
  scaleFactor : R
  offsetX : R
  offsetY : R
  offsetPalette : Nat
  fractal : Nat

/-- The palette is a table of `PALETTE_SIZE > 0` entries whose channels are bytes. -/
def Env.PaletteOK {R : Type} (env : Env R) : Prop :=
  0 < env.PALETTE_SIZE ∧
    ∀ i, i < env.PALETTE_SIZE →
      (env.PALETTE i).r < 256 ∧ (env.PALETTE i).g < 256 ∧ (env.PALETTE i).b < 256

section Arithmetic

variable {R : Type} [LinearOrderedField R] [FloorRing R]

/-- `mandelbrot(z, c)`: the new value of `z`. -/
def mandelbrot (z c : complex_t R) : complex_t R :=
  { real := z.real * z.real - z.imag * z.imag + c.real
    imag := 2 * z.real * z.imag + c.imag }

/-- `burningShip(z, c)`: the new value of `z`. -/
def burningShip (z c : complex_t R) : complex_t R :=
  { real := z.real * z.real - z.imag * z.imag + c.real
    imag := -|2 * z.real * z.imag| + c.imag }

/-- `lerp(a, b, f)`. -/
def lerp (a b f : R) : R :=
  a * (1 - f) + b * f

/-- The expression `z.real * z.real + z.imag * z.imag` of the loop condition. -/
def norm2 (z : complex_t R) : R :=
  z.real * z.real + z.imag * z.imag

/-- The `switch (fractal)` of the loop body: the new value of `z`. -/
def iterate (fractal : Nat) (z c : complex_t R) : complex_t R :=
  match fractal with
  | 0 => mandelbrot z c
  | 1 => burningShip z c
  | _ => z

/-- The `while` loop of `worker`, started at `z` with the counter `iterations`;
the result is the pair `(z, iterations)` at loop exit. -/
def escapeLoop (env : Env R) (maxIterations fractal : Nat) (c : complex_t R) :
    Nat → complex_t R → R → Option (complex_t R × R)
  | 0, _, _ => none
  | fuel + 1, z, iterations =>
    if norm2 z ≤ env.BAILOUT_RADIUS ∧ iterations < (maxIterations : R) then
      escapeLoop env maxIterations fractal c fuel (iterate fractal z c) (iterations + 1)
    else
      some (z, iterations)

/-- The `if (iterations < maxIterations) ... else iterations = 0` after the loop:
the value of `iterations` before the palette offset is added. -/
def smoothed (env : Env R) (maxIterations : Nat) (z : complex_t R) (iterations : R) : R :=
  if iterations < (maxIterations : R) then
    iterations + (1 - env.log (norm2 z) / env.log env.BAILOUT_RADIUS)
  else
    0

/-- The 32-bit subtraction `a - b`. -/
def u32sub (a b : Nat) : Nat :=
  (a + 4294967296 - b) % 4294967296

/-- The sample `c` of the pixel `(x, y)`. -/
def sample (a : Args R) (x y : Nat) : complex_t R :=
  { real := (x : R) * a.scaleFactor - a.offsetX
    imag := ((u32sub a.height y : Nat) : R) * a.scaleFactor - a.offsetY }

/-- The escape loop of the pixel `(x, y)` from `z = (0, 0)`, `iterations = 0`, with
fuel for `maxIterations + 1` tests of the loop condition. -/
def escape (env : Env R) (a : Args R) (x y : Nat) : Option (complex_t R × R) :=
  escapeLoop env a.maxIterations a.fractal (sample a x y) (a.maxIterations + 1) ⟨0, 0⟩ 0

/-- The value of `iterations` of the pixel `(x, y)` before `offsetPalette` is added. -/
def preOffset (env : Env R) (a : Args R) (x y : Nat) : Option R :=
  (escape env a x y).map fun p => smoothed env a.maxIterations p.1 p.2

/-- The value of `iterations` of the pixel `(x, y)` after `iterations += offsetPalette`. -/
def postOffset (env : Env R) (a : Args R) (x y : Nat) : Option R :=
  (preOffset env a x y).map fun it => it + (a.offsetPalette : R)

/-- The conversion `(uint32_t) d`: truncation toward zero, undefined out of range. -/
def castU32 (d : R) : Option Nat :=
  if -1 < d ∧ d < 4294967296 then some ⌊d⌋₊ else none

/-- The conversion `(uint8_t) d`: truncation toward zero, undefined out of range. -/
def castU8 (d : R) : Option Nat :=
  if -1 < d ∧ d < 256 then some ⌊d⌋₊ else none

/-- The locals `color1`, `color2` and `fraction` of `worker`. -/
structure Pick (R : Type) where
  color1 : RGB
  color2 : RGB
  fraction : R

/-- The three locals computed from the post-offset value of `iterations`. -/
def pick (env : Env R) (iterations : R) : Option (Pick R) :=
  if env.PALETTE_SIZE = 0 then none
  else
    (castU32 iterations).map fun i =>
      { color1 := env.PALETTE (i % env.PALETTE_SIZE)
        color2 := env.PALETTE ((i + 1) % 4294967296 % env.PALETTE_SIZE)
        fraction := iterations - (i : R) }

/-- The byte `(uint8_t) lerp(color1[k], color2[k], fraction)` for the channel values
`c1`, `c2`. -/
def channel (c1 c2 : Nat) (fraction : R) : Option Nat :=
  castU8 (lerp (c1 : R) (c2 : R) fraction)

/-- A store `buffer[offset] = value`; the value is `none` when the expression stored is
undefined. -/
abbrev Write := Nat × Option Nat

/-- The byte offset `pos = (width * y + x) * 4` in 32-bit arithmetic. -/
def pixelPos (width y x : Nat) : Nat :=
  ((width * y % 4294967296 + x) % 4294967296 * 4) % 4294967296

/-- The four stores of the body of the inner loop for the pixel `(x, y)`, given the
post-offset value of `iterations`. -/
def storePixel (env : Env R) (pos : Nat) (iterations : Option R) : List Write :=
  let p := iterations.bind (pick env)
  [ (pos, p.bind fun q => channel q.color1.r q.color2.r q.fraction),
    ((pos + 1) % 4294967296, p.bind fun q => channel q.color1.g q.color2.g q.fraction),
    ((pos + 2) % 4294967296, p.bind fun q => channel q.color1.b q.color2.b q.fraction),
    ((pos + 3) % 4294967296, some 255) ]

/-- The stores of the body of the inner loop of `worker` for the pixel `(x, y)`. -/
def pixelWrites (env : Env R) (a : Args R) (y x : Nat) : List Write :=
  storePixel env (pixelPos a.width y x) (postOffset env a x y)

/-- The orbit of `c`: the value of `z` after `k` rounds of the loop body from
`z = (0, 0)`. -/
def orbit (fractal : Nat) (c : complex_t R) (k : Nat) : complex_t R :=
  (fun z => iterate fractal z c)^[k] ⟨0, 0⟩

/-- The rows visited by `for (uint32_t y = n; y < height; y += THREAD_COUNT)`, started
at `y`, in the order of the visits; `none` when the loop has not exited after `fuel`
tests of its condition. -/
def rowLoop (T height : Nat) : Nat → Nat → Option (List Nat)
  | 0, _ => none
  | fuel + 1, y =>
    if y < height then (rowLoop T height fuel ((y + T) % 4294967296)).map (y :: ·)
    else some []

/-- The stores of the inner loop `for (uint32_t x = 0; x < width; x++)` on row `y`. -/
def rowWrites (env : Env R) (a : Args R) (y : Nat) : List Write :=
  (List.range a.width).flatMap fun x => pixelWrites env a y x

/-- The stores of `worker(width, ..., n, fractal)` in program order. -/
def worker (env : Env R) (a : Args R) (n fuel : Nat) : Option (List Write) :=
  (rowLoop env.THREAD_COUNT a.height fuel n).map fun rows =>
    rows.flatMap fun y => rowWrites env a y

end Arithmetic

/-- A heap block: its identity and its length in bytes. -/
structure Alloc where
  id : Nat
  len : Nat
deriving DecidableEq

/-- The globals `buffer` and `prevSize` together with the allocator: the identity the
next `malloc` returns and the identities released by `free` (most recent first). -/
structure State where
  buffer : Option Alloc
  prevSize : Nat
  nextId : Nat
  freed : List Nat
deriving DecidableEq

/-- The state at program start: `buffer = nullptr`, `prevSize = 0`. -/
def State.initial : State :=
  { buffer := none, prevSize := 0, nextId := 0, freed := [] }

/-- `free(buffer)`; freeing the null pointer does nothing. -/
def free (s : State) : State :=
  match s.buffer with
  | none => s
  | some blk => { s with freed := blk.id :: s.freed }

/-- `buffer = (uint8_t *) malloc(size)`. -/
def malloc (s : State) (size : Nat) : State :=
  { s with buffer := some { id := s.nextId, len := size }, nextId := s.nextId + 1 }

/-- The length of the block a pointer refers to; the null pointer refers to no bytes. -/
def allocLen (p : Option Alloc) : Nat :=
  match p with
  | none => 0
  | some blk => blk.len

/-- The value `size = width * height * 4` of `draw`, in 32-bit arithmetic. -/
def drawSize (width height : Nat) : Nat :=
  (width * height % 4294967296 * 4) % 4294967296

/-- The `if (prevSize != size) { free(buffer); buffer = malloc(size); }` of `draw`. -/
def resize (s : State) (size : Nat) : State :=
  if s.prevSize ≠ size then malloc (free s) size else s

/-- Joining the threads: all of them have to finish. -/
def joinAll {α : Type} : List (Option α) → Option (List α)
  | [] => some []
  | none :: _ => none
  | some x :: rest => (joinAll rest).map (x :: ·)

/-- What a call of `draw` leaves behind: the globals, the pointer it returns and the
stores of each of its threads. -/
structure DrawResult where
  state : State
  ret : Option Alloc
  writes : List (List Write)

section Draw

variable {R : Type} [LinearOrderedField R] [FloorRing R]

/-- `draw(width, height, maxIterations, scaleFactor, offsetX, offsetY, offsetPalette,
fractal)` run in the state `s`. -/
def draw (env : Env R) (s : State) (a : Args R) (fuel : Nat) : Option DrawResult :=
  let s1 := resize s (drawSize a.width a.height)
  (joinAll ((List.range env.THREAD_COUNT).map fun n => worker env a n fuel)).map fun ws =>
    { state := s1, ret := s1.buffer, writes := ws }

/-- A sequence of calls of `draw`, each run in the state the previous one left. -/
def drawSeq (env : Env R) (fuel : Nat) : State → List (Args R) → Option State
  | s, [] => some s
  | s, a :: rest => (draw env s a fuel).bind fun res => drawSeq env fuel res.state rest

/-- The byte offsets stored to during a call, over all threads. -/
def DrawResult.offsets (res : DrawResult) : List Nat :=
  res.writes.flatten.map Prod.fst

/-- The byte offsets of a list of stores. -/
def writeOffsets (ws : List Write) : List Nat :=
  ws.map Prod.fst

/-- The contents of memory at the byte offsets of the buffer; `none` is a byte that holds
no defined value. -/
abbrev Mem := Nat → Option Nat

/-- The memory after the stores `ws`, performed in this order on the memory `m`. -/
def applyWrites (m : Mem) (ws : List Write) : Mem :=
  ws.foldl (fun mem w => Function.update mem w.1 w.2) m

/-- The stores `ws`, performed in this order on a block of `len` bytes with the contents
`m`: a store `buffer[offset] = value` with `offset` outside the block is undefined
behaviour (`none`). -/
def runStores (len : Nat) : Mem → List Write → Option Mem
  | m, [] => some m
  | m, w :: ws =>
    if w.1 < len then runStores len (Function.update m w.1 w.2) ws else none

/-- The orders in time in which the stores of concurrently running threads can take
effect: `Interleaving wss l` says that `l` merges the store lists `wss` of the threads,
keeping the program order of each thread. -/
inductive Interleaving : List (List Write) → List Write → Prop
  | done (wss : List (List Write)) : (∀ ws, ws ∈ wss → ws = []) → Interleaving wss []
  | step (pre : List (List Write)) (w : Write) (ws : List Write) (post : List (List Write))
      (l : List Write) :
      Interleaving (pre ++ ws :: post) l → Interleaving (pre ++ (w :: ws) :: post) (w :: l)

/-- The reference renderer of the refinement claim: a single sequential loop over all
rows `y = 0 .. height - 1` and columns `x = 0 .. width - 1` that stores the same bytes
per pixel. -/
def sequentialWrites (env : Env R) (a : Args R) : List Write :=
  (List.range a.height).flatMap fun y => rowWrites env a y

/-- An environment for examples: two threads, bailout radius 4, a palette of three
entries, and `lg` for the logarithm. -/
def sampleEnv (lg : R → R) : Env R :=
  { THREAD_COUNT := 2
    BAILOUT_RADIUS := 4
    PALETTE_SIZE := 3
    PALETTE := fun i =>
      match i with
      | 0 => ⟨0, 0, 0⟩
      | 1 => ⟨200, 100, 50⟩
      | _ => ⟨255, 255, 255⟩
    log := lg }

/-- The arguments of the known sample: `draw(1, 1, 100, 1, 0, 0, 0, 0)`. -/
def knownSample : Args R :=
  { width := 1, height := 1, maxIterations := 100, scaleFactor := 1,
    offsetX := 0, offsetY := 0, offsetPalette := 0, fractal := 0 }

/-- Arguments whose size wraps: `width = 2^30 + 1`, `height = 2`, so that the 32-bit
`width * height * 4` is 8. -/
def wrapSample : Args R :=
  { width := 1073741825, height := 2, maxIterations := 2, scaleFactor := 1 / 536870912,
    offsetX := 0, offsetY := 2 + 1 / 536870912, offsetPalette := 0, fractal := 0 }

/-- The example environment over the rationals with the identity in the place of `log`,
to exercise the colouring on a count with a fractional part. -/
def idEnv : Env ℚ :=
  sampleEnv fun q => q

/-- The example environment over the rationals; its `log` is a stand-in that plays no
part in the offsets stored to, nor in the colour of a pixel that does not escape. -/
def ratEnv : Env ℚ :=
  sampleEnv fun _ => 0

end Draw

/-! ## Row striping -/

theorem rowLoop_succ_lt {T height y : Nat} (fuel : Nat) (h : y < height) :
    rowLoop T height (fuel + 1) y
      = (rowLoop T height fuel ((y + T) % 4294967296)).map (y :: ·) := by
  simp [rowLoop, h]

theorem rowLoop_succ_ge {T height y : Nat} (fuel : Nat) (h : height ≤ y) :
    rowLoop T height (fuel + 1) y = some [] := by
  simp [rowLoop, Nat.not_lt.mpr h]

/-- More fuel does not change the outcome of a row loop that has exited. -/
theorem rowLoop_mono {T height : Nat} :
    ∀ (fuel extra y : Nat) (rows : List Nat),
      rowLoop T height fuel y = some rows → rowLoop T height (fuel + extra) y = some rows := by
  intro fuel
  induction fuel with
  | zero => intro extra y rows h; simp [rowLoop] at h
  | succ fuel ih =>
    intro extra y rows h
    have e : fuel + 1 + extra = (fuel + extra) + 1 := by omega
    rw [e]
    by_cases hy : y < height
    · rw [rowLoop_succ_lt fuel hy] at h
      rw [rowLoop_succ_lt (fuel + extra) hy]
      cases hr : rowLoop T height fuel ((y + T) % 4294967296) with
      | none => rw [hr] at h; simp at h
      | some tl =>
        rw [hr] at h
        rw [ih extra _ tl hr]
        exact h
    · have hy2 : height ≤ y := Nat.le_of_not_lt hy
      rw [rowLoop_succ_ge fuel hy2] at h
      rw [rowLoop_succ_ge (fuel + extra) hy2]
      exact h

theorem mod_step_le {T y r : Nat} (hlt : y < r) (hmod : r % T = y % T) : y + T ≤ r := by
  by_contra hcon
  have h1 : (r - y) % T = 0 := Nat.sub_mod_eq_zero_of_mod_eq hmod
  have h2 : r - y < T := by omega
  rw [Nat.mod_eq_of_lt h2] at h1
  omega

/-- Without wrap-around the row loop started at `y` exits and has visited, once each,
the rows `y, y + T, y + 2T, ...` below `height`. -/
theorem rowLoop_spec {T height : Nat} (hT : 1 ≤ T) (hwrap : height + T ≤ 4294967296) :
    ∀ (fuel y : Nat), 0 < fuel → height < y + fuel →
      ∃ rows, rowLoop T height fuel y = some rows ∧ rows.Nodup ∧
        ∀ r, r ∈ rows ↔ (y ≤ r ∧ r < height ∧ r % T = y % T) := by
  intro fuel
  induction fuel with
  | zero => intro y h0; omega
  | succ fuel ih =>
    intro y _ hf
    by_cases hy : y < height
    · have hnext : (y + T) % 4294967296 = y + T := Nat.mod_eq_of_lt (by omega)
      obtain ⟨tl, htl, hnd, hmem⟩ := ih (y + T) (by omega) (by omega)
      refine ⟨y :: tl, ?_, ?_, ?_⟩
      · rw [rowLoop_succ_lt fuel hy, hnext, htl]; rfl
      · refine List.nodup_cons.mpr ⟨?_, hnd⟩
        intro hin
        have := (hmem y).mp hin
        omega
      · intro r
        rw [List.mem_cons, hmem r]
        constructor
        · rintro (rfl | ⟨h1, h2, h3⟩)
          · exact ⟨le_refl _, hy, rfl⟩
          · refine ⟨by omega, h2, ?_⟩
            rw [h3, Nat.add_mod_right]
        · rintro ⟨h1, h2, h3⟩
          by_cases hr : r = y
          · exact Or.inl hr
          · right
            have hlt : y < r := by omega
            refine ⟨mod_step_le hlt h3, h2, ?_⟩
            rw [h3, Nat.add_mod_right]
    · refine ⟨[], rowLoop_succ_ge fuel (Nat.le_of_not_lt hy), List.nodup_nil, ?_⟩
      intro r
      constructor
      · intro h; simp at h
      · rintro ⟨h1, h2, _⟩; omega

/-- While no row reaches `height` the loop runs on: `k` rounds started at `y` lead to
the loop started at `y + k * T`. -/
theorem rowLoop_skip (T height : Nat) (hT : 1 ≤ T) (hh : height < 4294967296) :
    ∀ (k y fuel : Nat) (rows : List Nat), y + k * T ≤ height →
      rowLoop T height fuel (y + k * T) = some rows →
      ∃ pre, rowLoop T height (k + fuel) y = some (pre ++ rows) := by
  intro k
  induction k with
  | zero =>
    intro y fuel rows _ h
    refine ⟨[], ?_⟩
    simpa using h
  | succ k ih =>
    intro y fuel rows hk h
    have hmul : y + (k + 1) * T = (y + T) + k * T := by ring
    have hy : y < height := by
      have : T ≤ (k + 1) * T := Nat.le_mul_of_pos_left T (Nat.succ_pos k)
      omega
    have hstep : (y + T) % 4294967296 = y + T := by
      apply Nat.mod_eq_of_lt
      have : T ≤ (k + 1) * T := Nat.le_mul_of_pos_left T (Nat.succ_pos k)
      omega
    rw [hmul] at hk h
    obtain ⟨pre, hpre⟩ := ih (y + T) fuel rows hk h
    refine ⟨y :: pre, ?_⟩
    have e : k + 1 + fuel = (k + fuel) + 1 := by omega
    rw [e, rowLoop_succ_lt (k + fuel) hy, hstep, hpre]
    rfl

/-- Without wrap-around worker `n < T` exits and has visited, once each, exactly the rows
`y < height` with `y mod T = n`. -/
theorem rowLoop_stripe (T height fuel : Nat) (hT : 1 ≤ T)
    (hwrap : height + T ≤ 4294967296) (hfuel : height < fuel) (n : Nat) (hn : n < T) :
    ∃ rows, rowLoop T height fuel n = some rows ∧ rows.Nodup ∧
      ∀ y, y ∈ rows ↔ (y < height ∧ y % T = n) := by
  obtain ⟨rows, h1, h2, h3⟩ := rowLoop_spec hT hwrap fuel n (by omega) (by omega)
  refine ⟨rows, h1, h2, ?_⟩
  intro y
  rw [h3 y, Nat.mod_eq_of_lt hn]
  constructor
  · rintro ⟨_, hb, hc⟩; exact ⟨hb, hc⟩
  · rintro ⟨hb, hc⟩
    refine ⟨?_, hb, hc⟩
    rw [← hc]; exact Nat.mod_le y T

/-- C1 (as amended): when `height + T` does not exceed 2^32 (so that the 32-bit row
counter never wraps) and `T ≥ 1`, every worker's row loop exits, worker `n` visits
exactly the rows `y < height` with `y mod T = n`, each once; the row sets of distinct
workers are disjoint and their union is `{0, ..., height - 1}`. -/
theorem row_striping_partition (T height fuel : Nat) (hT : 1 ≤ T)
    (hwrap : height + T ≤ 4294967296) (hfuel : height < fuel) :
    (∀ n, n < T → ∃ rows, rowLoop T height fuel n = some rows ∧ rows.Nodup ∧
        ∀ y, y ∈ rows ↔ (y < height ∧ y % T = n)) ∧
    (∀ n m rn rm, n < T → m < T → n ≠ m →
        rowLoop T height fuel n = some rn → rowLoop T height fuel m = some rm →
        ∀ y, y ∈ rn → y ∉ rm) ∧
    (∀ y, y < height ↔
        ∃ n rows, n < T ∧ rowLoop T height fuel n = some rows ∧ y ∈ rows) := by
  have key := rowLoop_stripe T height fuel hT hwrap hfuel
  refine ⟨key, ?_, ?_⟩
  · intro n m rn rm hn hm hne hrn hrm y hyn hym
    obtain ⟨rows, h1, _, h3⟩ := key n hn
    obtain ⟨rows2, k1, _, k3⟩ := key m hm
    rw [hrn] at h1; rw [hrm] at k1
    cases h1; cases k1
    exact hne (((h3 y).mp hyn).2.symm.trans ((k3 y).mp hym).2)
  · intro y
    constructor
    · intro hy
      have hlt : y % T < T := Nat.mod_lt y (by omega)
      obtain ⟨rows, h1, _, h3⟩ := key (y % T) hlt
      exact ⟨y % T, rows, hlt, h1, (h3 y).mpr ⟨hy, rfl⟩⟩
    · rintro ⟨n, rows, hn, hrows, hy⟩
      obtain ⟨rows2, h1, _, h3⟩ := key n hn
      rw [hrows] at h1; cases h1
      exact ((h3 y).mp hy).1

/-- Witness of `row_striping_partition`: three workers on ten rows. -/
theorem row_striping_partition_witness :
    (∀ n, n < 3 → ∃ rows, rowLoop 3 10 11 n = some rows ∧ rows.Nodup ∧
        ∀ y, y ∈ rows ↔ (y < 10 ∧ y % 3 = n)) ∧
    (∀ n m rn rm, n < 3 → m < 3 → n ≠ m →
        rowLoop 3 10 11 n = some rn → rowLoop 3 10 11 m = some rm →
        ∀ y, y ∈ rn → y ∉ rm) ∧
    (∀ y, y < 10 ↔ ∃ n rows, n < 3 ∧ rowLoop 3 10 11 n = some rows ∧ y ∈ rows) :=
  row_striping_partition 3 10 11 (by decide) (by decide) (by decide)

/-- C1 (counterexample): with three workers and `height = 2^32 - 1` the row counter of
worker 1 wraps from 4294967293 to 0, so row 0 is visited by worker 0 and by worker 1. -/
theorem row_striping_overlap :
    ∃ rows0 rows1,
      rowLoop 3 4294967295 2863311531 0 = some rows0 ∧
      rowLoop 3 4294967295 2863311531 1 = some rows1 ∧
      0 ∈ rows0 ∧ 0 ∈ rows1 := by
  have hend : rowLoop 3 4294967295 1 4294967295 = some [] :=
    rowLoop_succ_ge 0 (le_refl _)
  -- worker 0: rows 3, 6, ..., 4294967292 after row 0
  obtain ⟨pre0, h0⟩ := rowLoop_skip 3 4294967295 (by norm_num)
    (by norm_num) 1431655764 3 1 [] (by norm_num) (by simpa using hend)
  have hw0 : rowLoop 3 4294967295 (1431655765 + 1) 0 = some (0 :: (pre0 ++ [])) := by
    rw [rowLoop_succ_lt 1431655765 (by norm_num)]
    have e : (0 + 3) % 4294967296 = 3 := by norm_num
    rw [e]
    have e2 : 1431655764 + 1 = 1431655765 := by norm_num
    rw [e2] at h0
    rw [h0]; rfl
  -- worker 1: rows 1, 4, ..., 4294967293, then the wrap to row 0
  have hwrapstep : rowLoop 3 4294967295 (1431655766 + 1) 4294967293
      = some (4294967293 :: 0 :: (pre0 ++ [])) := by
    rw [rowLoop_succ_lt 1431655766 (by norm_num)]
    have e : (4294967293 + 3) % 4294967296 = 0 := by norm_num
    rw [e]
    have e2 : 1431655765 + 1 = 1431655766 := by norm_num
    rw [e2] at hw0
    rw [hw0]; rfl
  obtain ⟨pre1, h1⟩ := rowLoop_skip 3 4294967295 (by norm_num)
    (by norm_num) 1431655764 1 (1431655766 + 1) _ (by norm_num) (by simpa using hwrapstep)
  have h0full := rowLoop_mono (1431655765 + 1) 1431655765 0 _ hw0
  have e0 : 1431655765 + 1 + 1431655765 = 2863311531 := by norm_num
  have e1 : 1431655764 + (1431655766 + 1) = 2863311531 := by norm_num
  rw [e0] at h0full
  rw [e1] at h1
  exact ⟨_, _, h0full, h1, by simp, by simp⟩

/-! ## Byte offsets of the stores -/

theorem mem_offsets_storePixel {R : Type} [LinearOrderedField R] [FloorRing R]
    (env : Env R) (pos : Nat) (it : Option R) (o : Nat) :
    o ∈ writeOffsets (storePixel env pos it) ↔
      (o = pos ∨ o = (pos + 1) % 4294967296 ∨ o = (pos + 2) % 4294967296 ∨
        o = (pos + 3) % 4294967296) := by
  simp [writeOffsets, storePixel]

theorem mem_offsets_rowWrites {R : Type} [LinearOrderedField R] [FloorRing R]
    (env : Env R) (a : Args R) (y o : Nat) :
    o ∈ writeOffsets (rowWrites env a y) ↔
      ∃ x, x < a.width ∧ o ∈ writeOffsets (pixelWrites env a y x) := by
  simp only [writeOffsets, rowWrites, List.mem_map, List.mem_flatMap, List.mem_range]
  constructor
  · rintro ⟨w, ⟨x, hx, hw⟩, rfl⟩
    exact ⟨x, hx, w, hw, rfl⟩
  · rintro ⟨x, hx, w, hw, rfl⟩
    exact ⟨w, ⟨x, hx, hw⟩, rfl⟩

/-- The offsets a worker stores to: those of the pixels `(x, y)` with `y` a row its loop
visits and `x < width`. -/
theorem mem_offsets_worker {R : Type} [LinearOrderedField R] [FloorRing R]
    (env : Env R) (a : Args R) {n fuel : Nat} {rows : List Nat}
    (hrows : rowLoop env.THREAD_COUNT a.height fuel n = some rows) (o : Nat) :
    ∃ ws, worker env a n fuel = some ws ∧
      (o ∈ writeOffsets ws ↔
        ∃ y, y ∈ rows ∧ ∃ x, x < a.width ∧ o ∈ writeOffsets (pixelWrites env a y x)) := by
  refine ⟨rows.flatMap fun y => rowWrites env a y, ?_, ?_⟩
  · simp [worker, hrows]
  · constructor
    · intro h
      simp only [writeOffsets, List.mem_map, List.mem_flatMap] at h
      obtain ⟨w, ⟨y, hy, hw⟩, rfl⟩ := h
      refine ⟨y, hy, ?_⟩
      exact (mem_offsets_rowWrites env a y w.1).mp (List.mem_map.mpr ⟨w, hw, rfl⟩)
    · rintro ⟨y, hy, hx⟩
      have h2 := (mem_offsets_rowWrites env a y o).mpr hx
      simp only [writeOffsets, List.mem_map, List.mem_flatMap] at h2 ⊢
      obtain ⟨w, hw, rfl⟩ := h2
      exact ⟨w, ⟨y, hy, hw⟩, rfl⟩

/-- Without overflow `pos` is `(width * y + x) * 4` and the pixel lies in the buffer. -/
theorem pixelPos_eq {width height y x : Nat} (hsize : width * height * 4 ≤ 4294967296)
    (hy : y < height) (hx : x < width) :
    pixelPos width y x = (width * y + x) * 4 ∧
      (width * y + x) * 4 + 4 ≤ width * height * 4 := by
  have h1 : width * (y + 1) ≤ width * height := Nat.mul_le_mul_left width hy
  have h2 : width * (y + 1) = width * y + width := by ring
  have h3 : width * y + x < 4294967296 := by omega
  have h4 : width * y < 4294967296 := by omega
  have h5 : (width * y + x) * 4 < 4294967296 := by omega
  refine ⟨?_, by omega⟩
  unfold pixelPos
  rw [Nat.mod_eq_of_lt h4, Nat.mod_eq_of_lt h3, Nat.mod_eq_of_lt h5]

/-- Without overflow the four offsets of the pixel `(x, y)` are
`4 * (width * y + x) + j` for `j < 4`. -/
theorem mem_offsets_pixel {R : Type} [LinearOrderedField R] [FloorRing R]
    (env : Env R) (a : Args R) {y x : Nat} (hsize : a.width * a.height * 4 ≤ 4294967296)
    (hy : y < a.height) (hx : x < a.width) (o : Nat) :
    o ∈ writeOffsets (pixelWrites env a y x) ↔
      ((a.width * y + x) * 4 ≤ o ∧ o < (a.width * y + x) * 4 + 4) := by
  obtain ⟨hp, hb⟩ := pixelPos_eq hsize hy hx
  unfold pixelWrites
  rw [mem_offsets_storePixel, hp]
  have e1 : ((a.width * y + x) * 4 + 1) % 4294967296 = (a.width * y + x) * 4 + 1 :=
    Nat.mod_eq_of_lt (by omega)
  have e2 : ((a.width * y + x) * 4 + 2) % 4294967296 = (a.width * y + x) * 4 + 2 :=
    Nat.mod_eq_of_lt (by omega)
  have e3 : ((a.width * y + x) * 4 + 3) % 4294967296 = (a.width * y + x) * 4 + 3 :=
    Nat.mod_eq_of_lt (by omega)
  rw [e1, e2, e3]
  omega

/-- An offset determines the row of its pixel. -/
theorem row_of_offset {width y1 x1 y2 x2 o : Nat} (hx1 : x1 < width) (hx2 : x2 < width)
    (h1 : (width * y1 + x1) * 4 ≤ o ∧ o < (width * y1 + x1) * 4 + 4)
    (h2 : (width * y2 + x2) * 4 ≤ o ∧ o < (width * y2 + x2) * 4 + 4) : y1 = y2 := by
  have e : width * y1 + x1 = width * y2 + x2 := by omega
  have d1 : (width * y1 + x1) / width = y1 := by
    rw [Nat.add_comm, Nat.add_mul_div_left _ _ (by omega), Nat.div_eq_of_lt hx1, Nat.zero_add]
  have d2 : (width * y2 + x2) / width = y2 := by
    rw [Nat.add_comm, Nat.add_mul_div_left _ _ (by omega), Nat.div_eq_of_lt hx2, Nat.zero_add]
  rw [← d1, ← d2, e]

/-- C2 (as amended): when `width * height * 4` does not exceed 2^32 and
`height + THREAD_COUNT` does not exceed 2^32, the workers `n ≠ m` of one call both
finish and no byte offset is stored to by both. -/
theorem worker_writes_disjoint {R : Type} [LinearOrderedField R] [FloorRing R]
    (env : Env R) (a : Args R) (fuel n m : Nat) (hT : 1 ≤ env.THREAD_COUNT)
    (hsize : a.width * a.height * 4 ≤ 4294967296)
    (hwrap : a.height + env.THREAD_COUNT ≤ 4294967296) (hfuel : a.height < fuel)
    (hn : n < env.THREAD_COUNT) (hm : m < env.THREAD_COUNT) (hne : n ≠ m) :
    ∃ wn wm, worker env a n fuel = some wn ∧ worker env a m fuel = some wm ∧
      ∀ o, o ∈ writeOffsets wn → o ∉ writeOffsets wm := by
  have hkey := rowLoop_stripe env.THREAD_COUNT a.height fuel hT hwrap hfuel
  obtain ⟨rn, hrn, _, hmemn⟩ := hkey n hn
  obtain ⟨rm, hrm, _, hmemm⟩ := hkey m hm
  obtain ⟨wn, hwn, _⟩ := mem_offsets_worker env a hrn 0
  obtain ⟨wm, hwm, _⟩ := mem_offsets_worker env a hrm 0
  refine ⟨wn, wm, hwn, hwm, ?_⟩
  intro o hon hom
  obtain ⟨wn2, hwn2, hcn⟩ := mem_offsets_worker env a hrn o
  obtain ⟨wm2, hwm2, hcm⟩ := mem_offsets_worker env a hrm o
  rw [hwn] at hwn2; rw [hwm] at hwm2
  cases hwn2; cases hwm2
  obtain ⟨y1, hy1, x1, hx1, ho1⟩ := hcn.mp hon
  obtain ⟨y2, hy2, x2, hx2, ho2⟩ := hcm.mp hom
  have hy1b := (hmemn y1).mp hy1
  have hy2b := (hmemm y2).mp hy2
  rw [mem_offsets_pixel env a hsize hy1b.1 hx1] at ho1
  rw [mem_offsets_pixel env a hsize hy2b.1 hx2] at ho2
  have := row_of_offset hx1 hx2 ho1 ho2
  subst this
  exact hne (hy1b.2.symm.trans hy2b.2)

/-- Witness of `worker_writes_disjoint`: the two workers of a 2 x 2 image. -/
theorem worker_writes_disjoint_witness :
    ∃ wn wm, worker ratEnv ⟨2, 2, 10, 1, 0, 0, 0, 0⟩ 0 3 = some wn ∧
      worker ratEnv ⟨2, 2, 10, 1, 0, 0, 0, 0⟩ 1 3 = some wm ∧
      ∀ o, o ∈ writeOffsets wn → o ∉ writeOffsets wm :=
  worker_writes_disjoint ratEnv ⟨2, 2, 10, 1, 0, 0, 0, 0⟩ 3 0 1 (by decide) (by decide)
    (by decide) (by decide) (by decide) (by decide) (by decide)

/-- C2 (counterexample): for `width = 2^30` and `height = 2` the 32-bit product
`(width * 1 + 0) * 4` wraps to 0, so worker 1 (row 1) stores to byte offset 0, which
worker 0 (row 0) stores to as well. -/
theorem worker_writes_overlap :
    ∃ w0 w1, worker ratEnv ⟨1073741824, 2, 10, 1, 0, 0, 0, 0⟩ 0 3 = some w0 ∧
      worker ratEnv ⟨1073741824, 2, 10, 1, 0, 0, 0, 0⟩ 1 3 = some w1 ∧
      0 ∈ writeOffsets w0 ∧ 0 ∈ writeOffsets w1 := by
  have hr0 : rowLoop ratEnv.THREAD_COUNT
      (⟨1073741824, 2, 10, 1, 0, 0, 0, 0⟩ : Args ℚ).height 3 0 = some [0] := by
    simp [rowLoop, ratEnv, sampleEnv]
  have hr1 : rowLoop ratEnv.THREAD_COUNT
      (⟨1073741824, 2, 10, 1, 0, 0, 0, 0⟩ : Args ℚ).height 3 1 = some [1] := by
    simp [rowLoop, ratEnv, sampleEnv]
  obtain ⟨w0, hw0, hc0⟩ := mem_offsets_worker ratEnv _ hr0 0
  obtain ⟨w1, hw1, hc1⟩ := mem_offsets_worker ratEnv _ hr1 0
  refine ⟨w0, w1, hw0, hw1, hc0.mpr ?_, hc1.mpr ?_⟩
  · refine ⟨0, by simp, 0, by norm_num, ?_⟩
    unfold pixelWrites
    rw [mem_offsets_storePixel]
    left
    norm_num [pixelPos]
  · refine ⟨1, by simp, 0, by norm_num, ?_⟩
    unfold pixelWrites
    rw [mem_offsets_storePixel]
    left
    norm_num [pixelPos]

/-! ## The buffer of `draw` -/

theorem joinAll_map_some {α β : Type} (g : β → Option α) :
    ∀ l : List β, (∀ x, x ∈ l → ∃ y, g x = some y) → ∃ ys, joinAll (l.map g) = some ys := by
  intro l
  induction l with
  | nil => intro _; exact ⟨[], rfl⟩
  | cons x tl ih =>
    intro h
    obtain ⟨y, hy⟩ := h x (List.mem_cons_self x tl)
    obtain ⟨ys, hys⟩ := ih fun z hz => h z (List.mem_cons_of_mem x hz)
    refine ⟨y :: ys, ?_⟩
    simp [joinAll, hy, hys]

theorem joinAll_mem {α : Type} :
    ∀ (l : List (Option α)) (ys : List α), joinAll l = some ys →
      ∀ z, z ∈ ys ↔ some z ∈ l := by
  intro l
  induction l with
  | nil =>
    intro ys h z
    simp [joinAll] at h
    subst h
    simp
  | cons x tl ih =>
    intro ys h z
    cases x with
    | none => simp [joinAll] at h
    | some v =>
      cases htl : joinAll tl with
      | none => simp [joinAll, htl] at h
      | some vs =>
        simp [joinAll, htl] at h
        subst h
        have := ih vs htl z
        simp [this]

/-- The globals after a call that returns, and the pointer it returns. -/
theorem draw_state {R : Type} [LinearOrderedField R] [FloorRing R]
    (env : Env R) (s : State) (a : Args R) (fuel : Nat) (res : DrawResult)
    (h : draw env s a fuel = some res) :
    res.state = resize s (drawSize a.width a.height) ∧
      res.ret = (resize s (drawSize a.width a.height)).buffer := by
  unfold draw at h
  cases hj : joinAll ((List.range env.THREAD_COUNT).map fun n => worker env a n fuel) with
  | none => simp [hj] at h
  | some ws =>
    simp [hj] at h
    subst h
    exact ⟨rfl, rfl⟩

/-- A call returns once each of its threads has finished. -/
theorem draw_returns {R : Type} [LinearOrderedField R] [FloorRing R]
    (env : Env R) (s : State) (a : Args R) (fuel : Nat)
    (h : ∀ n, n < env.THREAD_COUNT → ∃ ws, worker env a n fuel = some ws) :
    ∃ res, draw env s a fuel = some res := by
  obtain ⟨ws, hws⟩ := joinAll_map_some (fun n => worker env a n fuel)
    (List.range env.THREAD_COUNT) (fun n hn => h n (List.mem_range.mp hn))
  refine ⟨{ state := resize s (drawSize a.width a.height),
            ret := (resize s (drawSize a.width a.height)).buffer, writes := ws }, ?_⟩
  simp [draw, hws]

/-- The offsets stored to during a call are those of its workers `n < THREAD_COUNT`. -/
theorem mem_offsets_draw {R : Type} [LinearOrderedField R] [FloorRing R]
    (env : Env R) (s : State) (a : Args R) (fuel : Nat) (res : DrawResult)
    (h : draw env s a fuel = some res) (o : Nat) :
    o ∈ res.offsets ↔
      ∃ n, n < env.THREAD_COUNT ∧ ∃ ws, worker env a n fuel = some ws ∧
        o ∈ writeOffsets ws := by
  unfold draw at h
  cases hj : joinAll ((List.range env.THREAD_COUNT).map fun n => worker env a n fuel) with
  | none => simp [hj] at h
  | some wss =>
    simp [hj] at h
    subst h
    have hmem := joinAll_mem _ wss hj
    simp only [DrawResult.offsets, writeOffsets, List.mem_map, List.mem_flatten]
    constructor
    · rintro ⟨w, ⟨ws, hws, hw⟩, rfl⟩
      have h1 := (hmem ws).mp hws
      rw [List.mem_map] at h1
      obtain ⟨n, hn, hn2⟩ := h1
      exact ⟨n, List.mem_range.mp hn, ws, hn2, w, hw, rfl⟩
    · rintro ⟨n, hn, ws, hws, w, hw, rfl⟩
      refine ⟨w, ⟨ws, ?_, hw⟩, rfl⟩
      rw [hmem ws, List.mem_map]
      exact ⟨n, List.mem_range.mpr hn, hws⟩

/-- No call assigns `prevSize`. -/
theorem resize_prevSize (s : State) (size : Nat) : (resize s size).prevSize = s.prevSize := by
  unfold resize
  split
  · unfold malloc free
    cases s.buffer <;> rfl
  · rfl

/-- In every state reached from the initial one `prevSize` is still 0. -/
theorem drawSeq_prevSize {R : Type} [LinearOrderedField R] [FloorRing R]
    (env : Env R) (fuel : Nat) :
    ∀ (calls : List (Args R)) (s0 s : State), drawSeq env fuel s0 calls = some s →
      s.prevSize = s0.prevSize := by
  intro calls
  induction calls with
  | nil =>
    intro s0 s h
    simp [drawSeq] at h
    rw [h]
  | cons a rest ih =>
    intro s0 s h
    simp only [drawSeq] at h
    cases hd : draw env s0 a fuel with
    | none => simp [hd] at h
    | some res =>
      simp [hd] at h
      rw [ih res.state s h, (draw_state env s0 a fuel res hd).1, resize_prevSize]

/-- With `prevSize = 0` a call of non-zero size allocates a block of that size. -/
theorem resize_len (s : State) (size : Nat) (hp : s.prevSize = 0) (hs : size ≠ 0) :
    (resize s size).buffer = some { id := s.nextId, len := size } := by
  unfold resize
  rw [if_pos (by rw [hp]; exact fun h => hs h.symm)]
  unfold malloc free
  cases s.buffer <;> rfl

theorem drawSize_eq (width height : Nat) :
    drawSize width height = (width * height * 4) % 4294967296 := by
  unfold drawSize
  exact Nat.mod_mul_mod

/-- Without wrap-around every worker of a call finishes. -/
theorem worker_finishes {R : Type} [LinearOrderedField R] [FloorRing R]
    (env : Env R) (a : Args R) (fuel : Nat) (hT : 1 ≤ env.THREAD_COUNT)
    (hwrap : a.height + env.THREAD_COUNT ≤ 4294967296) (hfuel : a.height < fuel)
    (n : Nat) (hn : n < env.THREAD_COUNT) : ∃ ws, worker env a n fuel = some ws := by
  obtain ⟨rows, hrows, _, _⟩ := rowLoop_stripe env.THREAD_COUNT a.height fuel hT hwrap hfuel n hn
  obtain ⟨ws, hws, _⟩ := mem_offsets_worker env a hrows 0
  exact ⟨ws, hws⟩

/-- Without overflow and wrap-around the offsets stored to by the workers of a call are
exactly those below `width * height * 4`. -/
theorem offsets_cover {R : Type} [LinearOrderedField R] [FloorRing R]
    (env : Env R) (a : Args R) (fuel : Nat) (hT : 1 ≤ env.THREAD_COUNT)
    (hsize : a.width * a.height * 4 ≤ 4294967296)
    (hwrap : a.height + env.THREAD_COUNT ≤ 4294967296) (hfuel : a.height < fuel) (o : Nat) :
    (∃ n, n < env.THREAD_COUNT ∧ ∃ ws, worker env a n fuel = some ws ∧ o ∈ writeOffsets ws)
      ↔ o < a.width * a.height * 4 := by
  have hkey := rowLoop_stripe env.THREAD_COUNT a.height fuel hT hwrap hfuel
  constructor
  · rintro ⟨n, hn, ws, hws, ho⟩
    obtain ⟨rows, hrows, _, hmem⟩ := hkey n hn
    obtain ⟨ws2, hws2, hc⟩ := mem_offsets_worker env a hrows o
    rw [hws] at hws2
    cases hws2
    obtain ⟨y, hy, x, hx, hox⟩ := hc.mp ho
    have hyb := ((hmem y).mp hy).1
    rw [mem_offsets_pixel env a hsize hyb hx] at hox
    have := (pixelPos_eq hsize hyb hx).2
    omega
  · intro ho
    have hw : 0 < a.width := by
      rcases Nat.eq_zero_or_pos a.width with h0 | h0
      · rw [h0] at ho; simp at ho
      · exact h0
    have hp : o / 4 < a.width * a.height := by omega
    have hy : o / 4 / a.width < a.height := by
      rw [Nat.div_lt_iff_lt_mul hw, Nat.mul_comm]
      exact hp
    have hx : o / 4 % a.width < a.width := Nat.mod_lt _ hw
    have hdm : a.width * (o / 4 / a.width) + o / 4 % a.width = o / 4 := Nat.div_add_mod _ _
    have hn : o / 4 / a.width % env.THREAD_COUNT < env.THREAD_COUNT := Nat.mod_lt _ (by omega)
    obtain ⟨rows, hrows, _, hmem⟩ := hkey _ hn
    obtain ⟨ws, hws, hc⟩ := mem_offsets_worker env a hrows o
    refine ⟨_, hn, ws, hws, hc.mpr ⟨o / 4 / a.width, (hmem _).mpr ⟨hy, rfl⟩, o / 4 % a.width, hx, ?_⟩⟩
    rw [mem_offsets_pixel env a hsize hy hx, hdm]
    omega

/-- C3 (as amended): in a state reached from the initial one by calls of `draw`, for
`width` and `height` with `0 < width * height * 4 < 2^32` and
`height + THREAD_COUNT ≤ 2^32`, the call returns a buffer of `width * height * 4` bytes
and the byte offsets stored to by its workers are exactly those of that buffer. -/
theorem draw_writes_cover {R : Type} [LinearOrderedField R] [FloorRing R]
    (env : Env R) (calls : List (Args R)) (s : State) (a : Args R) (fuel : Nat)
    (hT : 1 ≤ env.THREAD_COUNT)
    (hreach : drawSeq env fuel State.initial calls = some s)
    (hpos : 0 < a.width * a.height * 4) (hsize : a.width * a.height * 4 < 4294967296)
    (hwrap : a.height + env.THREAD_COUNT ≤ 4294967296) (hfuel : a.height < fuel) :
    ∃ res, draw env s a fuel = some res ∧
      allocLen res.ret = a.width * a.height * 4 ∧
      ∀ o, o ∈ res.offsets ↔ o < allocLen res.ret := by
  obtain ⟨res, hres⟩ := draw_returns env s a fuel (worker_finishes env a fuel hT hwrap hfuel)
  have hp : s.prevSize = 0 := drawSeq_prevSize env fuel calls _ s hreach
  have hds : drawSize a.width a.height = a.width * a.height * 4 := by
    rw [drawSize_eq, Nat.mod_eq_of_lt hsize]
  have hlen : allocLen res.ret = a.width * a.height * 4 := by
    rw [(draw_state env s a fuel res hres).2, resize_len s _ hp (by omega), hds]
    rfl
  refine ⟨res, hres, hlen, ?_⟩
  intro o
  rw [mem_offsets_draw env s a fuel res hres o, hlen]
  exact offsets_cover env a fuel hT (by omega) hwrap hfuel o

/-- Witness of `draw_writes_cover`: a 2 x 2 image after one earlier call. -/
theorem draw_writes_cover_witness :
    ∃ res, draw ratEnv ⟨some ⟨0, 4⟩, 0, 1, []⟩ ⟨2, 2, 10, 1, 0, 0, 0, 0⟩ 3 = some res ∧
      allocLen res.ret = 2 * 2 * 4 ∧
      ∀ o, o ∈ res.offsets ↔ o < allocLen res.ret :=
  draw_writes_cover ratEnv [⟨1, 1, 10, 1, 0, 0, 0, 0⟩] ⟨some ⟨0, 4⟩, 0, 1, []⟩
    ⟨2, 2, 10, 1, 0, 0, 0, 0⟩ 3 (by decide) (by rfl) (by decide) (by decide) (by decide)
    (by decide)

/-- C3 (counterexample): for `width = 2^30 + 1` and `height = 1` the size wraps to 4, so
`draw` returns a buffer of 4 bytes, while the pixel `x = 1` is stored at offset 4. -/
theorem draw_writes_out_of_bounds :
    ∃ res, draw ratEnv State.initial ⟨1073741825, 1, 10, 1, 0, 0, 0, 0⟩ 2 = some res ∧
      allocLen res.ret = 4 ∧ 4 ∈ res.offsets := by
  have hfin : ∀ n, n < ratEnv.THREAD_COUNT →
      ∃ ws, worker ratEnv ⟨1073741825, 1, 10, 1, 0, 0, 0, 0⟩ n 2 = some ws :=
    worker_finishes ratEnv _ 2 (by decide) (by decide) (by decide)
  obtain ⟨res, hres⟩ := draw_returns ratEnv State.initial _ 2 hfin
  refine ⟨res, hres, ?_, ?_⟩
  · rw [(draw_state ratEnv _ _ 2 res hres).2]
    rfl
  · rw [mem_offsets_draw ratEnv _ _ 2 res hres 4]
    have hr0 : rowLoop ratEnv.THREAD_COUNT
        (⟨1073741825, 1, 10, 1, 0, 0, 0, 0⟩ : Args ℚ).height 2 0 = some [0] := by
      simp [rowLoop, ratEnv, sampleEnv]
    obtain ⟨ws, hws, hc⟩ := mem_offsets_worker ratEnv _ hr0 4
    refine ⟨0, by decide, ws, hws, hc.mpr ⟨0, by simp, 1, by norm_num, ?_⟩⟩
    unfold pixelWrites
    rw [mem_offsets_storePixel]
    left
    norm_num [pixelPos]

/-- A call of 32-bit size 0 in a state reached from the initial one changes neither the
globals nor the allocator: it returns the pointer `buffer` held before the call, the
null pointer or the block left by an earlier call. -/
theorem draw_zero_size_keeps_block {R : Type} [LinearOrderedField R] [FloorRing R]
    (env : Env R) (calls : List (Args R)) (s : State) (a : Args R) (fuel : Nat)
    (res : DrawResult)
    (hreach : drawSeq env fuel State.initial calls = some s)
    (hret : draw env s a fuel = some res)
    (hzero : drawSize a.width a.height = 0) :
    res.state = s ∧ res.ret = s.buffer := by
  have hp : s.prevSize = 0 := drawSeq_prevSize env fuel calls _ s hreach
  have hres : resize s (drawSize a.width a.height) = s := by
    unfold resize
    rw [hzero, hp]
    simp
  obtain ⟨h1, h2⟩ := draw_state env s a fuel res hret
  rw [hres] at h1 h2
  exact ⟨h1, h2⟩

/-- C5 (the code at the failing input): two calls with `width = height = 1` from the
initial state.  The second call finds `prevSize` still 0, frees the block of the first
call and returns a newly allocated one. -/
theorem draw_same_size_reallocates :
    ∃ r1 r2, draw ratEnv State.initial ⟨1, 1, 0, 1, 0, 0, 0, 0⟩ 2 = some r1 ∧
      draw ratEnv r1.state ⟨1, 1, 0, 1, 0, 0, 0, 0⟩ 2 = some r2 ∧
      r1.ret = some ⟨0, 4⟩ ∧ r2.ret = some ⟨1, 4⟩ ∧
      r1.state.prevSize = 0 ∧ r2.state.freed = [0] := by
  have hfin : ∀ n, n < ratEnv.THREAD_COUNT →
      ∃ ws, worker ratEnv ⟨1, 1, 0, 1, 0, 0, 0, 0⟩ n 2 = some ws :=
    worker_finishes ratEnv _ 2 (by decide) (by decide) (by decide)
  obtain ⟨r1, h1⟩ := draw_returns ratEnv State.initial _ 2 hfin
  obtain ⟨r2, h2⟩ := draw_returns ratEnv r1.state _ 2 hfin
  have s1 := draw_state ratEnv _ _ 2 r1 h1
  have s2 := draw_state ratEnv _ _ 2 r2 h2
  refine ⟨r1, r2, h1, h2, ?_, ?_, ?_, ?_⟩
  · rw [s1.2]; rfl
  · rw [s2.2, s1.1]; rfl
  · rw [s1.1]; rfl
  · rw [s2.1, s1.1]; rfl

/-! ## Colouring of a pixel -/

section Colour

variable {R : Type} [LinearOrderedField R]

theorem lerp_zero (c1 c2 : R) : lerp c1 c2 0 = c1 := by
  simp [lerp]

theorem castU32_natCast [FloorRing R] (k : Nat) (hk : k < 4294967296) : castU32 (k : R) = some k := by
  unfold castU32
  have h1 : (-1 : R) < (k : R) :=
    lt_of_lt_of_le (by norm_num) (Nat.cast_nonneg k)
  have h2 : (k : R) < 4294967296 := by exact_mod_cast hk
  rw [if_pos ⟨h1, h2⟩, Nat.floor_natCast]

theorem castU8_natCast [FloorRing R] (k : Nat) (hk : k < 256) : castU8 (k : R) = some k := by
  unfold castU8
  have h1 : (-1 : R) < (k : R) :=
    lt_of_lt_of_le (by norm_num) (Nat.cast_nonneg k)
  have h2 : (k : R) < 256 := by exact_mod_cast hk
  rw [if_pos ⟨h1, h2⟩, Nat.floor_natCast]

/-- With fraction 0 the channel byte is the channel of `color1`. -/
theorem channel_zero [FloorRing R] (c1 c2 : Nat) (h : c1 < 256) : channel c1 c2 (0 : R) = some c1 := by
  unfold channel
  rw [lerp_zero, castU8_natCast c1 h]

/-- The locals for a count that is the integer `k`. -/
theorem pick_natCast [FloorRing R] (env : Env R) (k : Nat) (hps : 0 < env.PALETTE_SIZE)
    (hk : k < 4294967296) :
    pick env (k : R) =
      some { color1 := env.PALETTE (k % env.PALETTE_SIZE)
             color2 := env.PALETTE ((k + 1) % 4294967296 % env.PALETTE_SIZE)
             fraction := 0 } := by
  unfold pick
  rw [if_neg (by omega), castU32_natCast k hk]
  simp

/-- The four bytes of a pixel whose post-offset count is the integer `k`. -/
theorem storePixel_natCast [FloorRing R] (env : Env R) (pos k : Nat) (hpal : env.PaletteOK)
    (hk : k < 4294967296) :
    storePixel env pos (some (k : R)) =
      [ (pos, some (env.PALETTE (k % env.PALETTE_SIZE)).r),
        ((pos + 1) % 4294967296, some (env.PALETTE (k % env.PALETTE_SIZE)).g),
        ((pos + 2) % 4294967296, some (env.PALETTE (k % env.PALETTE_SIZE)).b),
        ((pos + 3) % 4294967296, some 255) ] := by
  obtain ⟨hps, hb⟩ := hpal
  obtain ⟨hr, hg, hbl⟩ := hb (k % env.PALETTE_SIZE) (Nat.mod_lt _ hps)
  unfold storePixel
  simp only [Option.some_bind, pick_natCast env k hps hk]
  rw [channel_zero _ _ hr, channel_zero _ _ hg, channel_zero _ _ hbl]

/-- At loop exit the loop condition is false. -/
theorem escapeLoop_exit (env : Env R) (maxIterations fractal : Nat) (c : complex_t R) :
    ∀ (fuel : Nat) (z0 : complex_t R) (it0 : R) (z : complex_t R) (it : R),
      escapeLoop env maxIterations fractal c fuel z0 it0 = some (z, it) →
      ¬ (norm2 z ≤ env.BAILOUT_RADIUS ∧ it < (maxIterations : R)) := by
  intro fuel
  induction fuel with
  | zero => intro z0 it0 z it h; simp [escapeLoop] at h
  | succ fuel ih =>
    intro z0 it0 z it h
    unfold escapeLoop at h
    split at h
    · exact ih _ _ z it h
    · rename_i hc
      simp only [Option.some.injEq, Prod.mk.injEq] at h
      rw [← h.1, ← h.2]
      exact hc

/-- A point `z` that the step maps to itself and that lies within the bailout radius
stays in the loop until the counter reaches `maxIterations`. -/
theorem escapeLoop_fixed (env : Env R) (maxIterations fractal : Nat) (c z : complex_t R)
    (hfix : iterate fractal z c = z) (hin : norm2 z ≤ env.BAILOUT_RADIUS) :
    ∀ (n k : Nat), k + n = maxIterations →
      escapeLoop env maxIterations fractal c (n + 1) z (k : R)
        = some (z, (maxIterations : R)) := by
  intro n
  induction n with
  | zero =>
    intro k hk
    have e : k = maxIterations := by omega
    subst e
    unfold escapeLoop
    rw [if_neg (fun h => lt_irrefl _ h.2)]
  | succ n ih =>
    intro k hk
    have hlt : (k : R) < (maxIterations : R) := by exact_mod_cast (by omega : k < maxIterations)
    unfold escapeLoop
    rw [if_pos ⟨hin, hlt⟩, hfix]
    have := ih (k + 1) (by omega)
    rw [Nat.cast_add, Nat.cast_one] at this
    exact this

/-- A pixel whose loop exits within the bailout radius has pre-offset count 0 and is
stored with the colour `PALETTE[offsetPalette % PALETTE_SIZE]`. -/
theorem pixel_inset [FloorRing R] (env : Env R) (a : Args R) (x y : Nat) (z : complex_t R) (it : R)
    (hpal : env.PaletteOK) (hoff : a.offsetPalette < 4294967296)
    (hexit : escape env a x y = some (z, it)) (hin : norm2 z ≤ env.BAILOUT_RADIUS) :
    preOffset env a x y = some 0 ∧
    pixelWrites env a y x =
      [ (pixelPos a.width y x,
          some (env.PALETTE (a.offsetPalette % env.PALETTE_SIZE)).r),
        ((pixelPos a.width y x + 1) % 4294967296,
          some (env.PALETTE (a.offsetPalette % env.PALETTE_SIZE)).g),
        ((pixelPos a.width y x + 2) % 4294967296,
          some (env.PALETTE (a.offsetPalette % env.PALETTE_SIZE)).b),
        ((pixelPos a.width y x + 3) % 4294967296, some 255) ] := by
  have hnot := escapeLoop_exit env _ _ _ _ _ _ z it hexit
  have hge : ¬ it < (a.maxIterations : R) := fun h => hnot ⟨hin, h⟩
  have hpre : preOffset env a x y = some 0 := by
    unfold preOffset
    rw [hexit]
    simp [smoothed, hge]
  refine ⟨hpre, ?_⟩
  unfold pixelWrites postOffset
  rw [hpre]
  simp only [Option.map_some', zero_add]
  exact storePixel_natCast env _ _ hpal hoff

/-- C6: a pixel whose escape loop exits with `|z|^2 ≤ BAILOUT_RADIUS` (the iteration
budget is used up) has pre-offset count 0; `fraction` is 0 and the four bytes stored are
the channels of `PALETTE[offsetPalette % PALETTE_SIZE]` and 255, whatever `color2` is.
For a non-negative bailout radius the sample `c = (0, 0)` under Mandelbrot is such a
point for every `maxIterations`. -/
theorem inset_policy [FloorRing R] (env : Env R) (a : Args R) (x y : Nat)
    (z : complex_t R) (it : R)
    (hpal : env.PaletteOK) (hoff : a.offsetPalette < 4294967296)
    (hexit : escape env a x y = some (z, it)) (hin : norm2 z ≤ env.BAILOUT_RADIUS) :
    preOffset env a x y = some 0 ∧
    postOffset env a x y = some (a.offsetPalette : R) ∧
    (∃ q, pick env (a.offsetPalette : R) = some q ∧ q.fraction = 0 ∧
      q.color1 = env.PALETTE (a.offsetPalette % env.PALETTE_SIZE)) ∧
    pixelWrites env a y x =
      [ (pixelPos a.width y x,
          some (env.PALETTE (a.offsetPalette % env.PALETTE_SIZE)).r),
        ((pixelPos a.width y x + 1) % 4294967296,
          some (env.PALETTE (a.offsetPalette % env.PALETTE_SIZE)).g),
        ((pixelPos a.width y x + 2) % 4294967296,
          some (env.PALETTE (a.offsetPalette % env.PALETTE_SIZE)).b),
        ((pixelPos a.width y x + 3) % 4294967296, some 255) ] ∧
    (0 ≤ env.BAILOUT_RADIUS → ∀ m : Nat,
      escapeLoop env m 0 ⟨0, 0⟩ (m + 1) ⟨0, 0⟩ 0 = some (⟨0, 0⟩, (m : R))) := by
  obtain ⟨hpre, hw⟩ := pixel_inset env a x y z it hpal hoff hexit hin
  refine ⟨hpre, ?_, ⟨_, pick_natCast env _ hpal.1 hoff, rfl, rfl⟩, hw, ?_⟩
  · unfold postOffset
    rw [hpre]
    simp
  · intro hB m
    have hfix : iterate 0 (⟨0, 0⟩ : complex_t R) ⟨0, 0⟩ = ⟨0, 0⟩ := by
      simp [iterate, mandelbrot]
    have hin0 : norm2 (⟨0, 0⟩ : complex_t R) ≤ env.BAILOUT_RADIUS := by
      simpa [norm2] using hB
    have := escapeLoop_fixed env m 0 ⟨0, 0⟩ ⟨0, 0⟩ hfix hin0 m 0 (by omega)
    simpa using this

/-- For a selector other than 0 and 1 the step leaves `z` as it is. -/
theorem iterate_other (fractal : Nat) (h0 : fractal ≠ 0) (h1 : fractal ≠ 1)
    (z c : complex_t R) : iterate fractal z c = z := by
  unfold iterate
  split
  · exact absurd rfl h0
  · exact absurd rfl h1
  · rfl

/-- For a selector other than 0 and 1 and a non-negative bailout radius the loop of
every pixel runs `maxIterations` times with `z = (0, 0)`. -/
theorem escape_other [FloorRing R] (env : Env R) (a : Args R) (x y : Nat)
    (hB : 0 ≤ env.BAILOUT_RADIUS) (h0 : a.fractal ≠ 0) (h1 : a.fractal ≠ 1) :
    escape env a x y = some (⟨0, 0⟩, (a.maxIterations : R)) := by
  have hin0 : norm2 (⟨0, 0⟩ : complex_t R) ≤ env.BAILOUT_RADIUS := by
    simpa [norm2] using hB
  have := escapeLoop_fixed env a.maxIterations a.fractal (sample a x y) ⟨0, 0⟩
    (iterate_other a.fractal h0 h1 _ _) hin0 a.maxIterations 0 (by omega)
  unfold escape
  simpa using this

/-- C8: for a fractal selector other than 0 and 1 (and a non-negative bailout radius)
the step leaves `z` unchanged, the loop of every pixel exits with `z = (0, 0)` after
`maxIterations` rounds, the pre-offset count is 0, and every pixel stored by a worker
carries the channels of `PALETTE[offsetPalette % PALETTE_SIZE]` and alpha 255. -/
theorem out_of_range_selector [FloorRing R] (env : Env R) (a : Args R)
    (hB : 0 ≤ env.BAILOUT_RADIUS) (hpal : env.PaletteOK)
    (hoff : a.offsetPalette < 4294967296) (h0 : a.fractal ≠ 0) (h1 : a.fractal ≠ 1) :
    (∀ z c : complex_t R, iterate a.fractal z c = z) ∧
    (∀ x y, escape env a x y = some (⟨0, 0⟩, (a.maxIterations : R)) ∧
      preOffset env a x y = some 0 ∧
      pixelWrites env a y x =
        [ (pixelPos a.width y x,
            some (env.PALETTE (a.offsetPalette % env.PALETTE_SIZE)).r),
          ((pixelPos a.width y x + 1) % 4294967296,
            some (env.PALETTE (a.offsetPalette % env.PALETTE_SIZE)).g),
          ((pixelPos a.width y x + 2) % 4294967296,
            some (env.PALETTE (a.offsetPalette % env.PALETTE_SIZE)).b),
          ((pixelPos a.width y x + 3) % 4294967296, some 255) ]) ∧
    (∀ n fuel ws, worker env a n fuel = some ws → ∀ w, w ∈ ws →
      w.2 = some (env.PALETTE (a.offsetPalette % env.PALETTE_SIZE)).r ∨
      w.2 = some (env.PALETTE (a.offsetPalette % env.PALETTE_SIZE)).g ∨
      w.2 = some (env.PALETTE (a.offsetPalette % env.PALETTE_SIZE)).b ∨
      w.2 = some 255) := by
  have hin0 : norm2 (⟨0, 0⟩ : complex_t R) ≤ env.BAILOUT_RADIUS := by
    simpa [norm2] using hB
  have hpix : ∀ x y, escape env a x y = some (⟨0, 0⟩, (a.maxIterations : R)) ∧
      preOffset env a x y = some 0 ∧
      pixelWrites env a y x =
        [ (pixelPos a.width y x,
            some (env.PALETTE (a.offsetPalette % env.PALETTE_SIZE)).r),
          ((pixelPos a.width y x + 1) % 4294967296,
            some (env.PALETTE (a.offsetPalette % env.PALETTE_SIZE)).g),
          ((pixelPos a.width y x + 2) % 4294967296,
            some (env.PALETTE (a.offsetPalette % env.PALETTE_SIZE)).b),
          ((pixelPos a.width y x + 3) % 4294967296, some 255) ] := by
    intro x y
    have he := escape_other env a x y hB h0 h1
    obtain ⟨hpre, hw⟩ := pixel_inset env a x y _ _ hpal hoff he hin0
    exact ⟨he, hpre, hw⟩
  refine ⟨iterate_other a.fractal h0 h1, hpix, ?_⟩
  intro n fuel ws hws w hw
  unfold worker at hws
  cases hr : rowLoop env.THREAD_COUNT a.height fuel n with
  | none => simp [hr] at hws
  | some rows =>
    simp [hr] at hws
    subst hws
    simp only [List.mem_flatMap, rowWrites] at hw
    obtain ⟨y, _, x, _, hwx⟩ := hw
    rw [(hpix x y).2.2] at hwx
    simp only [List.mem_cons, List.mem_singleton, List.not_mem_nil, or_false] at hwx
    rcases hwx with h | h | h | h <;> rw [h] <;> simp

end Colour

/-! ## Examples over the rationals -/

theorem ratEnv_paletteOK : ratEnv.PaletteOK := by
  refine ⟨by decide, ?_⟩
  intro i hi
  have : i < 3 := hi
  interval_cases i <;> decide

theorem idEnv_paletteOK : idEnv.PaletteOK := by
  refine ⟨by decide, ?_⟩
  intro i hi
  have : i < 3 := hi
  interval_cases i <;> decide

/-- Witness of `inset_policy`: the sample `c = (0, 0)` with `maxIterations = 3` and
`offsetPalette = 4`; the pixel gets `PALETTE[1]`. -/
theorem inset_policy_witness :
    preOffset ratEnv ⟨1, 1, 3, 1, 0, 1, 4, 0⟩ 0 0 = some 0 ∧
    pixelWrites ratEnv ⟨1, 1, 3, 1, 0, 1, 4, 0⟩ 0 0 =
      [(0, some 200), (1, some 100), (2, some 50), (3, some 255)] :=
  have h := inset_policy ratEnv ⟨1, 1, 3, 1, 0, 1, 4, 0⟩ 0 0 ⟨0, 0⟩ 3 ratEnv_paletteOK
    (by decide)
    (by norm_num [escape, escapeLoop, sample, u32sub, iterate, mandelbrot, norm2, ratEnv,
      sampleEnv])
    (by norm_num [norm2, ratEnv, sampleEnv])
  ⟨h.1, h.2.2.2.1⟩

/-- Witness of `out_of_range_selector`: selector 5 on a 2 x 2 image, the pixel (1, 1). -/
theorem out_of_range_selector_witness :
    escape ratEnv ⟨2, 2, 7, 1, 0, 0, 4, 5⟩ 1 1 = some (⟨0, 0⟩, 7) ∧
    preOffset ratEnv ⟨2, 2, 7, 1, 0, 0, 4, 5⟩ 1 1 = some 0 ∧
    pixelWrites ratEnv ⟨2, 2, 7, 1, 0, 0, 4, 5⟩ 1 1 =
      [(12, some 200), (13, some 100), (14, some 50), (15, some 255)] :=
  (out_of_range_selector ratEnv ⟨2, 2, 7, 1, 0, 0, 4, 5⟩
    (by norm_num [ratEnv, sampleEnv]) ratEnv_paletteOK (by decide) (by decide)
    (by decide)).2.1 1 1

/-! ## The known sample -/

section KnownSample

variable {R : Type} [LinearOrderedField R]

/-- One round of the loop while the loop condition holds. -/
theorem escapeLoop_step (env : Env R) (maxIterations fractal : Nat) (c : complex_t R)
    (fuel : Nat) (z : complex_t R) (it : R) (hin : norm2 z ≤ env.BAILOUT_RADIUS)
    (hlt : it < (maxIterations : R)) :
    escapeLoop env maxIterations fractal c (fuel + 1) z it
      = escapeLoop env maxIterations fractal c fuel (iterate fractal z c) (it + 1) := by
  rw [escapeLoop, if_pos ⟨hin, hlt⟩]

theorem mandelbrot_i_a : iterate 0 (⟨-1, 1⟩ : complex_t R) ⟨0, 1⟩ = ⟨0, -1⟩ := by
  simp only [iterate, mandelbrot]
  norm_num

theorem mandelbrot_i_b : iterate 0 (⟨0, -1⟩ : complex_t R) ⟨0, 1⟩ = ⟨-1, 1⟩ := by
  simp only [iterate, mandelbrot]
  norm_num

theorem mandelbrot_i_start : iterate 0 (⟨0, 0⟩ : complex_t R) ⟨0, 1⟩ = ⟨0, 1⟩ := by
  simp only [iterate, mandelbrot]
  norm_num

theorem mandelbrot_i_first : iterate 0 (⟨0, 1⟩ : complex_t R) ⟨0, 1⟩ = ⟨-1, 1⟩ := by
  simp only [iterate, mandelbrot]
  norm_num

/-- The orbit of `c = (0, 1)` under Mandelbrot: 0, i, -1+i, -i, -1+i, -i, ... -/
theorem orbit_i (j : Nat) :
    orbit 0 (⟨0, 1⟩ : complex_t R) (2 * j + 2) = ⟨-1, 1⟩ ∧
      orbit 0 (⟨0, 1⟩ : complex_t R) (2 * j + 3) = ⟨0, -1⟩ := by
  induction j with
  | zero =>
    have h2 : orbit 0 (⟨0, 1⟩ : complex_t R) 2 = ⟨-1, 1⟩ := by
      simp only [orbit, Function.iterate_succ, Function.iterate_zero, Function.comp_apply, id]
      rw [mandelbrot_i_start, mandelbrot_i_first]
    refine ⟨h2, ?_⟩
    show orbit 0 (⟨0, 1⟩ : complex_t R) (2 + 1) = ⟨0, -1⟩
    unfold orbit at h2 ⊢
    rw [Function.iterate_succ_apply', h2, mandelbrot_i_a]
  | succ j ih =>
    have e1 : 2 * (j + 1) + 2 = (2 * j + 3) + 1 := by ring
    have e2 : 2 * (j + 1) + 3 = ((2 * j + 3) + 1) + 1 := by ring
    have h2 : orbit 0 (⟨0, 1⟩ : complex_t R) ((2 * j + 3) + 1) = ⟨-1, 1⟩ := by
      have := ih.2
      unfold orbit at this ⊢
      rw [Function.iterate_succ_apply', this, mandelbrot_i_b]
    rw [e1, e2]
    refine ⟨h2, ?_⟩
    unfold orbit at h2 ⊢
    rw [Function.iterate_succ_apply', h2, mandelbrot_i_a]

/-- Every point of the orbit of `c = (0, 1)` has `|z|^2 ≤ 2`. -/
theorem orbit_i_bounded (k : Nat) : norm2 (orbit 0 (⟨0, 1⟩ : complex_t R) k) ≤ 2 := by
  rcases Nat.lt_or_ge k 2 with hk | hk
  · interval_cases k
    · simp [orbit, norm2]
    · have : orbit 0 (⟨0, 1⟩ : complex_t R) 1 = ⟨0, 1⟩ := by
        simp only [orbit, Function.iterate_succ, Function.iterate_zero, Function.comp_apply, id]
        rw [mandelbrot_i_start]
      rw [this]
      norm_num [norm2]
  · rcases Nat.even_or_odd' (k - 2) with ⟨j, hj | hj⟩
    · have e : k = 2 * j + 2 := by omega
      rw [e, (orbit_i j).1]
      norm_num [norm2]
    · have e : k = 2 * j + 3 := by omega
      rw [e, (orbit_i j).2]
      norm_num [norm2]

/-- From `z = -1 + i` with an even number of rounds left the loop for `c = (0, 1)` runs
to the end of the budget and exits at `z = -1 + i`. -/
theorem escapeLoop_cycle (env : Env R) (maxIterations : Nat)
    (hB : 2 ≤ env.BAILOUT_RADIUS) :
    ∀ (j k : Nat), k + 2 * j = maxIterations →
      escapeLoop env maxIterations 0 ⟨0, 1⟩ (2 * j + 1) ⟨-1, 1⟩ (k : R)
        = some (⟨-1, 1⟩, (maxIterations : R)) := by
  intro j
  induction j with
  | zero =>
    intro k hk
    have e : k = maxIterations := by omega
    subst e
    rw [escapeLoop, if_neg (fun h => lt_irrefl _ h.2)]
  | succ j ih =>
    intro k hk
    have ha : norm2 (⟨-1, 1⟩ : complex_t R) ≤ env.BAILOUT_RADIUS := by
      have : norm2 (⟨-1, 1⟩ : complex_t R) = 2 := by norm_num [norm2]
      rw [this]; exact hB
    have hb : norm2 (⟨0, -1⟩ : complex_t R) ≤ env.BAILOUT_RADIUS := by
      have : norm2 (⟨0, -1⟩ : complex_t R) = 1 := by norm_num [norm2]
      rw [this]; exact le_trans (by norm_num) hB
    have hk1 : (k : R) < (maxIterations : R) := by exact_mod_cast (by omega : k < maxIterations)
    have hk2 : (k : R) + 1 < (maxIterations : R) := by
      exact_mod_cast (by omega : k + 1 < maxIterations)
    have e : 2 * (j + 1) + 1 = ((2 * j + 1) + 1) + 1 := by ring
    rw [e, escapeLoop_step env _ _ _ _ _ _ ha hk1, mandelbrot_i_a,
      escapeLoop_step env _ _ _ _ _ _ hb hk2, mandelbrot_i_b]
    have := ih (k + 2) (by omega)
    rw [Nat.cast_add] at this
    have e2 : (k : R) + 1 + 1 = (k : R) + ((2 : Nat) : R) := by push_cast; ring
    rw [e2]
    exact this

/-- The threads that find no row to work on contribute no stores. -/
theorem joinAll_idle {β : Type} (g : β → Option (List Write)) :
    ∀ l : List β, (∀ x, x ∈ l → g x = some []) →
      ∃ wss, joinAll (l.map g) = some wss ∧ wss.flatten = [] := by
  intro l
  induction l with
  | nil => intro _; exact ⟨[], rfl, rfl⟩
  | cons x tl ih =>
    intro h
    obtain ⟨wss, h1, h2⟩ := ih fun z hz => h z (List.mem_cons_of_mem x hz)
    refine ⟨[] :: wss, ?_, ?_⟩
    · simp [joinAll, h x (List.mem_cons_self x tl), h1]
    · simpa using h2

/-- C7: `draw(1, 1, 100, 1, 0, 0, 0, 0)` evaluates its pixel at `c = (0, 1)`, whose
Mandelbrot orbit is 0, i, -1+i, -i, -1+i, -i, ... with `|z|^2 ≤ 2` throughout; for a
bailout radius of at least 2 the loop uses up its 100 iterations without escape, and the
call returns a buffer of 4 bytes holding the channels of `PALETTE[0]` and 255. -/
theorem known_sample [FloorRing R] (env : Env R) (fuel : Nat)
    (hT : 1 ≤ env.THREAD_COUNT) (hT2 : env.THREAD_COUNT < 4294967296)
    (hB : 2 ≤ env.BAILOUT_RADIUS) (hpal : env.PaletteOK) (hfuel : 1 < fuel) :
    sample (knownSample : Args R) 0 0 = ⟨0, 1⟩ ∧
    orbit 0 (⟨0, 1⟩ : complex_t R) 0 = ⟨0, 0⟩ ∧
    orbit 0 (⟨0, 1⟩ : complex_t R) 1 = ⟨0, 1⟩ ∧
    (∀ j, orbit 0 (⟨0, 1⟩ : complex_t R) (2 * j + 2) = ⟨-1, 1⟩ ∧
      orbit 0 (⟨0, 1⟩ : complex_t R) (2 * j + 3) = ⟨0, -1⟩) ∧
    (∀ k, norm2 (orbit 0 (⟨0, 1⟩ : complex_t R) k) ≤ 2) ∧
    escape env knownSample 0 0 = some (⟨-1, 1⟩, 100) ∧
    ∃ res, draw env State.initial knownSample fuel = some res ∧
      res.ret = some ⟨0, 4⟩ ∧
      res.writes.flatten =
        [ (0, some (env.PALETTE 0).r), (1, some (env.PALETTE 0).g),
          (2, some (env.PALETTE 0).b), (3, some 255) ] := by
  have hsample : sample (knownSample : Args R) 0 0 = ⟨0, 1⟩ := by
    norm_num [sample, knownSample, u32sub]
  have hB0 : norm2 (⟨0, 0⟩ : complex_t R) ≤ env.BAILOUT_RADIUS := by
    have : norm2 (⟨0, 0⟩ : complex_t R) = 0 := by norm_num [norm2]
    rw [this]; exact le_trans (by norm_num) hB
  have hB1 : norm2 (⟨0, 1⟩ : complex_t R) ≤ env.BAILOUT_RADIUS := by
    have : norm2 (⟨0, 1⟩ : complex_t R) = 1 := by norm_num [norm2]
    rw [this]; exact le_trans (by norm_num) hB
  have hesc : escape env knownSample 0 0 = some (⟨-1, 1⟩, 100) := by
    unfold escape
    rw [hsample]
    show escapeLoop env 100 0 ⟨0, 1⟩ ((2 * 49 + 1) + 1 + 1) ⟨0, 0⟩ 0 = _
    rw [escapeLoop_step env _ _ _ _ _ _ hB0 (by norm_num), mandelbrot_i_start,
      escapeLoop_step env _ _ _ _ _ _ hB1 (by norm_num), mandelbrot_i_first]
    have := escapeLoop_cycle env 100 hB 49 2 (by norm_num)
    have e : (0 : R) + 1 + 1 = ((2 : Nat) : R) := by norm_num
    rw [e, this]
    norm_num
  have horb1 : orbit 0 (⟨0, 1⟩ : complex_t R) 1 = ⟨0, 1⟩ := by
    simp only [orbit, Function.iterate_succ, Function.iterate_zero, Function.comp_apply, id]
    rw [mandelbrot_i_start]
  refine ⟨hsample, rfl, horb1, orbit_i, orbit_i_bounded, hesc, ?_⟩
  -- the pixel
  have hin : norm2 (⟨-1, 1⟩ : complex_t R) ≤ env.BAILOUT_RADIUS := by
    have : norm2 (⟨-1, 1⟩ : complex_t R) = 2 := by norm_num [norm2]
    rw [this]; exact hB
  have hpix := (pixel_inset env knownSample 0 0 _ _ hpal (by norm_num [knownSample]) hesc hin).2
  -- the workers
  obtain ⟨f, rfl⟩ : ∃ f, fuel = f + 2 := ⟨fuel - 2, by omega⟩
  have hrow0 : rowLoop env.THREAD_COUNT 1 (f + 2) 0 = some [0] := by
    rw [rowLoop_succ_lt (f + 1) (by norm_num), Nat.zero_add, Nat.mod_eq_of_lt hT2,
      rowLoop_succ_ge f hT]
    rfl
  have hw0 : worker env knownSample 0 (f + 2) = some (pixelWrites env knownSample 0 0) := by
    unfold worker
    have hh : (knownSample : Args R).height = 1 := rfl
    rw [hh, hrow0]
    have hw : (knownSample : Args R).width = 1 := rfl
    simp [rowWrites, hw, List.range_succ, List.range_zero]
  have hidle : ∀ n, n ∈ List.range (env.THREAD_COUNT - 1) →
      (fun n => worker env knownSample (n + 1) (f + 2)) n = some [] := by
    intro n _
    show worker env knownSample (n + 1) (f + 1 + 1) = some []
    unfold worker
    have hh : (knownSample : Args R).height = 1 := rfl
    rw [hh, rowLoop_succ_ge (f + 1) (by omega)]
    rfl
  obtain ⟨wss, hj, hfl⟩ := joinAll_idle _ _ hidle
  have hrange : List.range env.THREAD_COUNT
      = 0 :: (List.range (env.THREAD_COUNT - 1)).map Nat.succ := by
    have e : env.THREAD_COUNT = (env.THREAD_COUNT - 1) + 1 := by omega
    conv_lhs => rw [e]
    exact List.range_succ_eq_map _
  have hjoin : joinAll ((List.range env.THREAD_COUNT).map
      fun n => worker env knownSample n (f + 2))
      = some (pixelWrites env knownSample 0 0 :: wss) := by
    rw [hrange, List.map_cons, List.map_map, hw0]
    have e : ((fun n => worker env knownSample n (f + 2)) ∘ Nat.succ)
        = fun n => worker env knownSample (n + 1) (f + 2) := rfl
    rw [e]
    simp [joinAll, hj]
  refine ⟨{ state := resize State.initial (drawSize 1 1),
            ret := (resize State.initial (drawSize 1 1)).buffer,
            writes := pixelWrites env knownSample 0 0 :: wss }, ?_, rfl, ?_⟩
  · unfold draw
    rw [hjoin]
    rfl
  · rw [List.flatten_cons, hfl, List.append_nil, hpix]
    simp [pixelPos, knownSample, Nat.zero_mod]

end KnownSample

/-- Witness of `known_sample`: two threads, bailout radius 4. -/
theorem known_sample_witness :
    ∃ res, draw ratEnv State.initial knownSample 2 = some res ∧
      res.ret = some ⟨0, 4⟩ ∧
      res.writes.flatten = [(0, some 0), (1, some 0), (2, some 0), (3, some 255)] :=
  (known_sample ratEnv 2 (by decide) (by decide) (by norm_num [ratEnv, sampleEnv])
    ratEnv_paletteOK (by decide)).2.2.2.2.2.2

/-! ## Palette lookup and interpolation -/

section Interpolation

variable {R : Type} [LinearOrderedField R] [FloorRing R]

/-- C9 (as amended): a pixel whose post-offset count is an integer `k` with
`0 ≤ k < 2^32` gets fraction 0, and the bytes stored are the channels of
`PALETTE[k % PALETTE_SIZE]` and 255; `lerp(color1, color2, 0) = color1` whatever
`color2` is. -/
theorem coloring_boundary (env : Env R) (a : Args R) (x y k : Nat)
    (hpal : env.PaletteOK) (hk : k < 4294967296)
    (hit : postOffset env a x y = some (k : R)) :
    (∃ q, pick env (k : R) = some q ∧ q.fraction = 0 ∧
      q.color1 = env.PALETTE (k % env.PALETTE_SIZE)) ∧
    pixelWrites env a y x =
      [ (pixelPos a.width y x, some (env.PALETTE (k % env.PALETTE_SIZE)).r),
        ((pixelPos a.width y x + 1) % 4294967296, some (env.PALETTE (k % env.PALETTE_SIZE)).g),
        ((pixelPos a.width y x + 2) % 4294967296, some (env.PALETTE (k % env.PALETTE_SIZE)).b),
        ((pixelPos a.width y x + 3) % 4294967296, some 255) ] ∧
    (∀ c1 c2 : R, lerp c1 c2 0 = c1) := by
  refine ⟨⟨_, pick_natCast env k hpal.1 hk, rfl, rfl⟩, ?_, lerp_zero⟩
  unfold pixelWrites
  rw [hit]
  exact storePixel_natCast env _ k hpal hk

/-- The channel byte for a fraction in `[0, 1)` and byte channels: the truncation of the
interpolated value. -/
theorem channel_of_fraction (c1 c2 : Nat) (f : R) (h1 : c1 < 256) (h2 : c2 < 256)
    (hf0 : 0 ≤ f) (hf1 : f < 1) :
    channel c1 c2 f = some ⌊lerp (c1 : R) (c2 : R) f⌋₊ := by
  have hc1 : (c1 : R) ≤ 255 := by exact_mod_cast Nat.le_of_lt_succ h1
  have hc2 : (c2 : R) ≤ 255 := by exact_mod_cast Nat.le_of_lt_succ h2
  have hg : 0 ≤ 1 - f := by linarith
  have p1 : 0 ≤ (c1 : R) * (1 - f) := mul_nonneg (Nat.cast_nonneg c1) hg
  have p2 : 0 ≤ (c2 : R) * f := mul_nonneg (Nat.cast_nonneg c2) hf0
  have q1 : (c1 : R) * (1 - f) ≤ 255 * (1 - f) := mul_le_mul_of_nonneg_right hc1 hg
  have q2 : (c2 : R) * f ≤ 255 * f := mul_le_mul_of_nonneg_right hc2 hf0
  unfold channel castU8 lerp
  rw [if_pos ⟨by linarith, by linarith⟩]

/-- The locals for a count `it` with `0 ≤ it < 2^32 - 1`. -/
theorem pick_of_nonneg (env : Env R) (it : R) (hps : 0 < env.PALETTE_SIZE) (h0 : 0 ≤ it)
    (h1 : it < 4294967295) :
    pick env it =
      some { color1 := env.PALETTE (⌊it⌋₊ % env.PALETTE_SIZE)
             color2 := env.PALETTE ((⌊it⌋₊ + 1) % env.PALETTE_SIZE)
             fraction := it - (⌊it⌋₊ : R) } := by
  have hfl : ⌊it⌋₊ < 4294967295 := (Nat.floor_lt h0).mpr (by exact_mod_cast h1)
  have hmod : (⌊it⌋₊ + 1) % 4294967296 = ⌊it⌋₊ + 1 := Nat.mod_eq_of_lt (by omega)
  unfold pick castU32
  rw [if_neg (by omega), if_pos ⟨by linarith, by linarith⟩]
  simp [hmod]

/-- C10 (as amended): for a pixel whose post-offset count `iterations` satisfies
`0 ≤ iterations < 2^32 - 1`, worker picks `color1 = PALETTE[⌊iterations⌋ % PALETTE_SIZE]`
and `color2 = PALETTE[(⌊iterations⌋ + 1) % PALETTE_SIZE]`, uses the fraction
`f = iterations - ⌊iterations⌋` with `0 ≤ f < 1`, and stores for R, G, B the truncation
of `color1 * (1 - f) + color2 * f`, followed by alpha 255. -/
theorem pixel_colour_formula (env : Env R) (a : Args R) (x y : Nat) (it : R)
    (hpal : env.PaletteOK) (hit : postOffset env a x y = some it) (h0 : 0 ≤ it)
    (h1 : it < 4294967295) :
    pick env it =
      some { color1 := env.PALETTE (⌊it⌋.toNat % env.PALETTE_SIZE)
             color2 := env.PALETTE ((⌊it⌋.toNat + 1) % env.PALETTE_SIZE)
             fraction := it - (⌊it⌋ : R) } ∧
    0 ≤ it - (⌊it⌋ : R) ∧ it - (⌊it⌋ : R) < 1 ∧
    pixelWrites env a y x =
      [ (pixelPos a.width y x,
          some ⌊lerp ((env.PALETTE (⌊it⌋.toNat % env.PALETTE_SIZE)).r : R)
            ((env.PALETTE ((⌊it⌋.toNat + 1) % env.PALETTE_SIZE)).r : R) (it - (⌊it⌋ : R))⌋₊),
        ((pixelPos a.width y x + 1) % 4294967296,
          some ⌊lerp ((env.PALETTE (⌊it⌋.toNat % env.PALETTE_SIZE)).g : R)
            ((env.PALETTE ((⌊it⌋.toNat + 1) % env.PALETTE_SIZE)).g : R) (it - (⌊it⌋ : R))⌋₊),
        ((pixelPos a.width y x + 2) % 4294967296,
          some ⌊lerp ((env.PALETTE (⌊it⌋.toNat % env.PALETTE_SIZE)).b : R)
            ((env.PALETTE ((⌊it⌋.toNat + 1) % env.PALETTE_SIZE)).b : R) (it - (⌊it⌋ : R))⌋₊),
        ((pixelPos a.width y x + 3) % 4294967296, some 255) ] := by
  obtain ⟨hps, hb⟩ := hpal
  have hcast : ((⌊it⌋₊ : Nat) : R) = ((⌊it⌋ : Int) : R) := natCast_floor_eq_intCast_floor h0
  have hnat : ⌊it⌋.toNat = ⌊it⌋₊ := Int.floor_toNat it
  have hf0 : 0 ≤ it - (⌊it⌋ : R) := by
    have := Int.floor_le it
    linarith
  have hf1 : it - (⌊it⌋ : R) < 1 := by
    have := Int.lt_floor_add_one it
    linarith
  have hpick := pick_of_nonneg env it hps h0 h1
  rw [hcast, ← hnat] at hpick
  refine ⟨hpick, hf0, hf1, ?_⟩
  obtain ⟨r1, g1, b1⟩ := hb (⌊it⌋.toNat % env.PALETTE_SIZE) (Nat.mod_lt _ hps)
  obtain ⟨r2, g2, b2⟩ := hb ((⌊it⌋.toNat + 1) % env.PALETTE_SIZE) (Nat.mod_lt _ hps)
  unfold pixelWrites storePixel
  rw [hit]
  simp only [Option.some_bind, hpick]
  rw [channel_of_fraction _ _ _ r1 r2 hf0 hf1, channel_of_fraction _ _ _ g1 g2 hf0 hf1,
    channel_of_fraction _ _ _ b1 b2 hf0 hf1]

end Interpolation

/-- Witness of `coloring_boundary`: a Burning Ship pixel with sample `c = (0, 0)` and
`offsetPalette = 7`, so that the post-offset count is the integer 7. -/
theorem coloring_boundary_witness :
    pixelWrites ratEnv ⟨3, 2, 5, 1, 1, 2, 7, 1⟩ 0 1 =
      [(4, some 200), (5, some 100), (6, some 50), (7, some 255)] :=
  (coloring_boundary ratEnv ⟨3, 2, 5, 1, 1, 2, 7, 1⟩ 1 0 7 ratEnv_paletteOK (by decide)
    (by norm_num [postOffset, preOffset, escape, escapeLoop, smoothed, sample, u32sub, iterate,
      burningShip, norm2, ratEnv, sampleEnv])).2.1

/-- Witness of `pixel_colour_formula`: with the identity in the place of `log` the sample
`c = (5/2, 0)` escapes after one round with `|z|^2 = 25/4`; the count is
`1 + 1 - (25/4)/4 + 1 = 23/16`, so `color1 = PALETTE[1]`, `color2 = PALETTE[2]` and
`f = 7/16`. -/
theorem pixel_colour_formula_witness :
    pixelWrites idEnv ⟨1, 1, 2, 1, -5/2, 1, 1, 0⟩ 0 0 =
      [(0, some 224), (1, some 167), (2, some 139), (3, some 255)] := by
  have h := (pixel_colour_formula idEnv ⟨1, 1, 2, 1, -5/2, 1, 1, 0⟩ 0 0 (23/16)
    idEnv_paletteOK
    (by norm_num [postOffset, preOffset, escape, escapeLoop, smoothed, sample, u32sub, iterate,
      mandelbrot, norm2, idEnv, sampleEnv])
    (by norm_num) (by norm_num)).2.2.2
  have hfl : ⌊(23/16 : ℚ)⌋ = 1 := by
    rw [Int.floor_eq_iff]; norm_num
  rw [h, hfl]
  have e1 : ⌊(3585/16 : ℚ)⌋₊ = 224 := by rw [Nat.floor_eq_iff (by norm_num)]; norm_num
  have e2 : ⌊(2685/16 : ℚ)⌋₊ = 167 := by rw [Nat.floor_eq_iff (by norm_num)]; norm_num
  have e3 : ⌊(2235/16 : ℚ)⌋₊ = 139 := by rw [Nat.floor_eq_iff (by norm_num)]; norm_num
  norm_num [lerp, idEnv, sampleEnv, pixelPos, e1, e2, e3]

/-! ## Counts below zero, over the reals -/

theorem log_64 : Real.log 64 = 3 * Real.log 4 := by
  rw [show (64 : ℝ) = 4 ^ 3 by norm_num, Real.log_pow]
  norm_num

theorem log_16 : Real.log 16 = 2 * Real.log 4 := by
  rw [show (16 : ℝ) = 4 ^ 2 by norm_num, Real.log_pow]
  norm_num

theorem log_4_pos : 0 < Real.log 4 :=
  Real.log_pos (by norm_num)

theorem log_36_bounds : 2 < Real.log 36 / Real.log 4 ∧ Real.log 36 / Real.log 4 < 3 := by
  have h1 : Real.log 16 < Real.log 36 := Real.log_lt_log (by norm_num) (by norm_num)
  have h2 : Real.log 36 < Real.log 64 := Real.log_lt_log (by norm_num) (by norm_num)
  rw [log_16] at h1
  rw [log_64] at h2
  constructor
  · rw [lt_div_iff₀ log_4_pos]; exact h1
  · rw [div_lt_iff₀ log_4_pos]; exact h2

/-- With bailout radius 4 the sample `c = (8, 0)` escapes after one round with
`|z|^2 = 64 = 4^3`: the count is `1 + 1 - 3 = -1`. -/
theorem postOffset_minus_one :
    postOffset (sampleEnv Real.log) ⟨1, 1, 2, 1, -8, 1, 0, 0⟩ 0 0 = some (-1) := by
  have hesc : escape (sampleEnv Real.log) ⟨1, 1, 2, 1, -8, 1, 0, 0⟩ 0 0
      = some (⟨8, 0⟩, 1) := by
    norm_num [escape, escapeLoop, sample, u32sub, iterate, mandelbrot, norm2, sampleEnv]
  unfold postOffset preOffset
  rw [hesc]
  have h : Real.log 64 / Real.log 4 = 3 := by
    rw [log_64]; field_simp [ne_of_gt log_4_pos]
  norm_num [smoothed, norm2, sampleEnv, h]

/-- With bailout radius 4 the sample `c = (6, 0)` escapes after one round with
`|z|^2 = 36`: the count is `2 - log 36 / log 4`, between -1 and 0. -/
theorem postOffset_fractional_negative :
    postOffset (sampleEnv Real.log) ⟨1, 1, 2, 1, -6, 1, 0, 0⟩ 0 0
      = some (2 - Real.log 36 / Real.log 4) := by
  have hesc : escape (sampleEnv Real.log) ⟨1, 1, 2, 1, -6, 1, 0, 0⟩ 0 0
      = some (⟨6, 0⟩, 1) := by
    norm_num [escape, escapeLoop, sample, u32sub, iterate, mandelbrot, norm2, sampleEnv]
  unfold postOffset preOffset
  rw [hesc]
  norm_num [smoothed, norm2, sampleEnv]
  ring

/-- C9 (counterexample): with bailout radius 4, `draw(1, 1, 2, 1, -8, 1, 0, 0)` evaluates
its pixel at `c = (8, 0)`; the post-offset count is the integer -1, for which the
conversion to `uint32_t` is undefined, so none of the R, G, B bytes stored is a palette
channel. -/
theorem coloring_boundary_negative :
    postOffset (sampleEnv Real.log) ⟨1, 1, 2, 1, -8, 1, 0, 0⟩ 0 0 = some (-1) ∧
    pixelWrites (sampleEnv Real.log) ⟨1, 1, 2, 1, -8, 1, 0, 0⟩ 0 0 =
      [(0, none), (1, none), (2, none), (3, some 255)] := by
  refine ⟨postOffset_minus_one, ?_⟩
  unfold pixelWrites
  rw [postOffset_minus_one]
  norm_num [storePixel, pick, castU32, pixelPos, sampleEnv]

/-- C10 (counterexample): with bailout radius 4, `draw(1, 1, 2, 1, -6, 1, 0, 0)` evaluates
its pixel at `c = (6, 0)`; the post-offset count `it` lies between -1 and 0, so
`⌊it⌋ = -1` and `⌊it⌋ mod 3 = 2`, while the conversion truncates to 0: worker picks
`color1 = PALETTE[0]`, not `PALETTE[2]`, and its fraction is `it` itself, which is
negative and differs from `it - ⌊it⌋`. -/
theorem pixel_colour_formula_negative :
    ∃ it q, postOffset (sampleEnv Real.log) ⟨1, 1, 2, 1, -6, 1, 0, 0⟩ 0 0 = some it ∧
      pick (sampleEnv Real.log) it = some q ∧
      ⌊it⌋ = -1 ∧ (⌊it⌋ % 3).toNat = 2 ∧
      q.color1 = (sampleEnv Real.log).PALETTE 0 ∧
      q.color1 ≠ (sampleEnv Real.log).PALETTE 2 ∧
      q.fraction = it ∧ q.fraction < 0 ∧ q.fraction ≠ it - (⌊it⌋ : ℝ) := by
  obtain ⟨hl, hu⟩ := log_36_bounds
  have hneg : 2 - Real.log 36 / Real.log 4 < 0 := by linarith
  have hgt : -1 < 2 - Real.log 36 / Real.log 4 := by linarith
  have hfloor : ⌊2 - Real.log 36 / Real.log 4⌋ = -1 := by
    rw [Int.floor_eq_iff]
    constructor
    · push_cast; linarith
    · push_cast; linarith
  have hnat : ⌊2 - Real.log 36 / Real.log 4⌋₊ = 0 := Nat.floor_of_nonpos (le_of_lt hneg)
  have hpick : pick (sampleEnv Real.log) (2 - Real.log 36 / Real.log 4)
      = some ⟨(sampleEnv Real.log).PALETTE 0, (sampleEnv Real.log).PALETTE 1,
          2 - Real.log 36 / Real.log 4⟩ := by
    unfold pick castU32
    rw [if_neg (by simp [sampleEnv]), if_pos ⟨hgt, by linarith⟩, hnat]
    simp [sampleEnv]
  refine ⟨_, _, postOffset_fractional_negative, hpick, hfloor, ?_, rfl, ?_, rfl, hneg, ?_⟩
  · rw [hfloor]; decide
  · simp [sampleEnv]
  · rw [hfloor]
    push_cast
    intro h
    linarith

/-! ## The escape loop -/

section EscapeLoop

variable {R : Type} [LinearOrderedField R]

theorem orbit_succ (fractal : Nat) (c : complex_t R) (j : Nat) :
    orbit fractal c (j + 1) = iterate fractal (orbit fractal c j) c := by
  unfold orbit
  rw [Function.iterate_succ_apply']

/-- More fuel does not change the outcome of an escape loop that has exited. -/
theorem escapeLoop_mono (env : Env R) (maxIterations fractal : Nat) (c : complex_t R) :
    ∀ (fuel extra : Nat) (z : complex_t R) (it : R) (res : complex_t R × R),
      escapeLoop env maxIterations fractal c fuel z it = some res →
      escapeLoop env maxIterations fractal c (fuel + extra) z it = some res := by
  intro fuel
  induction fuel with
  | zero => intro extra z it res h; simp [escapeLoop] at h
  | succ fuel ih =>
    intro extra z it res h
    have e : fuel + 1 + extra = (fuel + extra) + 1 := by omega
    rw [e]
    unfold escapeLoop at h ⊢
    split
    · rename_i hc
      rw [if_pos hc] at h
      exact ih extra _ _ res h
    · rename_i hc
      rw [if_neg hc] at h
      exact h

/-- The loop started after `j` rounds, with `n` rounds of budget left, exits after some
`k` rounds with `j ≤ k ≤ maxIterations` at the `k`-th point of the orbit; the points
before it lie within the bailout radius and the loop condition fails at exit. -/
theorem escapeLoop_run (env : Env R) (maxIterations fractal : Nat) (c : complex_t R) :
    ∀ (n j : Nat), j + n = maxIterations →
      ∃ k, j ≤ k ∧ k ≤ maxIterations ∧
        escapeLoop env maxIterations fractal c (n + 1) (orbit fractal c j) (j : R)
          = some (orbit fractal c k, (k : R)) ∧
        (∀ i, j ≤ i → i < k → norm2 (orbit fractal c i) ≤ env.BAILOUT_RADIUS) ∧
        ¬ (norm2 (orbit fractal c k) ≤ env.BAILOUT_RADIUS ∧ k < maxIterations) := by
  intro n
  induction n with
  | zero =>
    intro j hj
    refine ⟨j, le_refl _, by omega, ?_, fun i h1 h2 => by omega, fun h => by omega⟩
    have e : ¬ ((j : R) < (maxIterations : R)) := by
      have : j = maxIterations := by omega
      rw [this]
      exact lt_irrefl _
    rw [escapeLoop, if_neg (fun h => e h.2)]
  | succ n ih =>
    intro j hj
    by_cases hin : norm2 (orbit fractal c j) ≤ env.BAILOUT_RADIUS
    · have hlt : (j : R) < (maxIterations : R) := by
        exact_mod_cast (by omega : j < maxIterations)
      obtain ⟨k, h1, h2, h3, h4, h5⟩ := ih (j + 1) (by omega)
      refine ⟨k, by omega, h2, ?_, ?_, h5⟩
      · rw [escapeLoop, if_pos ⟨hin, hlt⟩, ← orbit_succ]
        rw [Nat.cast_add, Nat.cast_one] at h3
        exact h3
      · intro i hi1 hi2
        by_cases hij : i = j
        · rw [hij]; exact hin
        · exact h4 i (by omega) hi2
    · refine ⟨j, le_refl _, by omega, ?_, fun i h1 h2 => by omega, fun h => hin h.1⟩
      rw [escapeLoop, if_neg (fun h => hin h.1)]

/-- The escape loop of a pixel exits after `k ≤ maxIterations` rounds at the `k`-th
point of the orbit of its sample. -/
theorem escape_spec (env : Env R) (a : Args R) (x y : Nat) :
    ∃ k, k ≤ a.maxIterations ∧
      escape env a x y = some (orbit a.fractal (sample a x y) k, (k : R)) ∧
      (∀ i, i < k → norm2 (orbit a.fractal (sample a x y) i) ≤ env.BAILOUT_RADIUS) ∧
      ¬ (norm2 (orbit a.fractal (sample a x y) k) ≤ env.BAILOUT_RADIUS ∧
          k < a.maxIterations) := by
  obtain ⟨k, _, h2, h3, h4, h5⟩ :=
    escapeLoop_run env a.maxIterations a.fractal (sample a x y) a.maxIterations 0 (by omega)
  refine ⟨k, h2, ?_, fun i hi => h4 i (Nat.zero_le i) hi, h5⟩
  unfold escape
  have e : orbit a.fractal (sample a x y) 0 = ⟨0, 0⟩ := rfl
  rw [e, Nat.cast_zero] at h3
  exact h3

theorem norm2_zero : norm2 (⟨0, 0⟩ : complex_t R) = 0 := by
  simp [norm2]

/-- C17: the while loop of every pixel exits within fuel for `maxIterations + 1` tests
of its condition (and more fuel changes nothing), after `k` rounds with
`0 ≤ k ≤ maxIterations`, the counter being the integer `k`; `k = 0` exactly when
`maxIterations = 0` or `BAILOUT_RADIUS < 0`. -/
theorem escape_loop_bound (env : Env R) (a : Args R) (x y : Nat) :
    ∃ k : Nat, k ≤ a.maxIterations ∧
      escape env a x y = some (orbit a.fractal (sample a x y) k, (k : R)) ∧
      (∀ extra, escapeLoop env a.maxIterations a.fractal (sample a x y)
          (a.maxIterations + 1 + extra) ⟨0, 0⟩ 0
        = some (orbit a.fractal (sample a x y) k, (k : R))) ∧
      (k = 0 ↔ (a.maxIterations = 0 ∨ env.BAILOUT_RADIUS < 0)) := by
  obtain ⟨k, h1, h2, h3, h4⟩ := escape_spec env a x y
  refine ⟨k, h1, h2, ?_, ?_⟩
  · intro extra
    exact escapeLoop_mono env _ _ _ _ extra _ _ _ h2
  · have e : orbit a.fractal (sample a x y) 0 = ⟨0, 0⟩ := rfl
    constructor
    · intro hk
      subst hk
      rw [e, norm2_zero] at h4
      by_cases hB : env.BAILOUT_RADIUS < 0
      · exact Or.inr hB
      · left
        by_contra hm
        exact h4 ⟨not_lt.mp hB, Nat.pos_of_ne_zero hm⟩
    · rintro (hm | hB)
      · omega
      · by_contra hk
        have := h3 0 (Nat.pos_of_ne_zero hk)
        rw [e, norm2_zero] at this
        exact absurd hB (not_lt.mpr this)

/-- C15 (as amended): the loop of a pixel exits after `k ≤ maxIterations` rounds at the
point `z` of the orbit.  If `k < maxIterations` the orbit has escaped (`|z|^2` exceeds
the bailout radius) and the pre-offset count is `k + 1 - log(|z|^2) / log(BAILOUT_RADIUS)`;
if `k = maxIterations` the count is reset to 0, whether or not `z` has escaped. -/
theorem smoothing_on_escape (env : Env R) (a : Args R) (x y : Nat) :
    ∃ k : Nat, k ≤ a.maxIterations ∧
      escape env a x y = some (orbit a.fractal (sample a x y) k, (k : R)) ∧
      (k < a.maxIterations →
        env.BAILOUT_RADIUS < norm2 (orbit a.fractal (sample a x y) k) ∧
        preOffset env a x y
          = some ((k : R) + 1 - env.log (norm2 (orbit a.fractal (sample a x y) k))
              / env.log env.BAILOUT_RADIUS)) ∧
      (k = a.maxIterations → preOffset env a x y = some 0) := by
  obtain ⟨k, h1, h2, _, h4⟩ := escape_spec env a x y
  refine ⟨k, h1, h2, ?_, ?_⟩
  · intro hk
    have hesc : env.BAILOUT_RADIUS < norm2 (orbit a.fractal (sample a x y) k) := by
      by_contra hcon
      exact h4 ⟨not_lt.mp hcon, hk⟩
    refine ⟨hesc, ?_⟩
    have hlt : (k : R) < (a.maxIterations : R) := by exact_mod_cast hk
    unfold preOffset
    rw [h2]
    simp only [Option.map_some', smoothed, if_pos hlt]
    congr 1
    ring
  · intro hk
    have hge : ¬ (k : R) < (a.maxIterations : R) := by
      rw [hk]; exact lt_irrefl _
    unfold preOffset
    rw [h2]
    simp only [Option.map_some', smoothed, if_neg hge]

end EscapeLoop

/-- C15 (counterexample): with bailout radius 4 and `maxIterations = 1` the sample
`c = (8, 0)` escapes in the first (and last) round, `|z|^2 = 64 > 4` at loop exit after
`k = 1` steps; the count is reset to 0, not `1 + 1 - log 64 / log 4 = -1`. -/
theorem smoothing_skipped_at_budget :
    escape (sampleEnv Real.log) ⟨1, 1, 1, 1, -8, 1, 0, 0⟩ 0 0 = some (⟨8, 0⟩, 1) ∧
    (sampleEnv Real.log).BAILOUT_RADIUS < norm2 (⟨8, 0⟩ : complex_t ℝ) ∧
    preOffset (sampleEnv Real.log) ⟨1, 1, 1, 1, -8, 1, 0, 0⟩ 0 0 = some 0 ∧
    (1 : ℝ) + 1 - Real.log (norm2 (⟨8, 0⟩ : complex_t ℝ))
      / Real.log (sampleEnv Real.log).BAILOUT_RADIUS ≠ 0 := by
  have hesc : escape (sampleEnv Real.log) ⟨1, 1, 1, 1, -8, 1, 0, 0⟩ 0 0
      = some (⟨8, 0⟩, 1) := by
    norm_num [escape, escapeLoop, sample, u32sub, iterate, mandelbrot, norm2, sampleEnv]
  refine ⟨hesc, by norm_num [norm2, sampleEnv], ?_, ?_⟩
  · unfold preOffset
    rw [hesc]
    norm_num [smoothed]
  · have h : Real.log 64 / Real.log 4 = 3 := by
      rw [log_64]; field_simp [ne_of_gt log_4_pos]
    have e : norm2 (⟨8, 0⟩ : complex_t ℝ) = 64 := by norm_num [norm2]
    have e2 : (sampleEnv Real.log).BAILOUT_RADIUS = 4 := rfl
    rw [e, e2, h]
    norm_num

/-! ## Sign of the smoothed count -/

section SmoothedCount

variable {R : Type} [LinearOrderedField R]

/-- The first round of Mandelbrot and of Burning Ship takes `z = (0, 0)` to `c`. -/
theorem iterate_origin (fractal : Nat) (c : complex_t R) (hf : fractal = 0 ∨ fractal = 1) :
    iterate fractal ⟨0, 0⟩ c = c := by
  rcases hf with h | h <;> subst h
  · simp [iterate, mandelbrot]
  · simp [iterate, burningShip]

/-- One round of Mandelbrot or Burning Ship: `|z^2 + c|^2 ≤ 2 (|z|^4 + |c|^2)`. -/
theorem norm2_iterate_le (fractal : Nat) (w c : complex_t R)
    (hf : fractal = 0 ∨ fractal = 1) :
    norm2 (iterate fractal w c) ≤ 2 * (norm2 w * norm2 w + norm2 c) := by
  rcases hf with h | h <;> subst h
  · simp only [iterate, mandelbrot, norm2]
    nlinarith [sq_nonneg (w.real * w.real - w.imag * w.imag - c.real),
      sq_nonneg (2 * w.real * w.imag - c.imag)]
  · simp only [iterate, burningShip, norm2]
    nlinarith [sq_nonneg (w.real * w.real - w.imag * w.imag - c.real),
      sq_nonneg (-|2 * w.real * w.imag| - c.imag), abs_mul_abs_self (2 * w.real * w.imag)]

theorem preOffset_of_escape (env : Env R) (a : Args R) (x y : Nat) (z : complex_t R)
    (it : R) (h : escape env a x y = some (z, it)) :
    preOffset env a x y = some (smoothed env a.maxIterations z it) := by
  unfold preOffset
  rw [h]
  rfl

/-- With a bailout radius `B ≥ 4` and a sample with `|c|^2 ≤ B^2`, a point that leaves
the bailout region in round `k` has `|z|^2 ≤ B^(k+1)`. -/
theorem norm2_at_escape (env : Env R) (fractal : Nat) (c : complex_t R) (k : Nat)
    (hB : 4 ≤ env.BAILOUT_RADIUS)
    (hc : norm2 c ≤ env.BAILOUT_RADIUS * env.BAILOUT_RADIUS)
    (hin : ∀ i, i < k → norm2 (orbit fractal c i) ≤ env.BAILOUT_RADIUS)
    (hout : env.BAILOUT_RADIUS < norm2 (orbit fractal c k)) :
    1 ≤ k ∧ norm2 (orbit fractal c k) ≤ env.BAILOUT_RADIUS ^ (k + 1) := by
  have hB0 : (0 : R) ≤ env.BAILOUT_RADIUS := le_trans (by norm_num) hB
  have hB1 : (1 : R) ≤ env.BAILOUT_RADIUS := le_trans (by norm_num) hB
  have hk : 1 ≤ k := by
    by_contra hcon
    have hk0 : k = 0 := by omega
    rw [hk0] at hout
    have e : orbit fractal c 0 = ⟨0, 0⟩ := rfl
    rw [e, norm2_zero] at hout
    linarith
  refine ⟨hk, ?_⟩
  obtain ⟨j, rfl⟩ : ∃ j, k = j + 1 := ⟨k - 1, by omega⟩
  have hw := hin j (Nat.lt_succ_self j)
  rw [orbit_succ] at hout ⊢
  have hf : fractal = 0 ∨ fractal = 1 := by
    by_contra hcon
    have h0 : fractal ≠ 0 := fun h => hcon (Or.inl h)
    have h1 : fractal ≠ 1 := fun h => hcon (Or.inr h)
    rw [iterate_other fractal h0 h1] at hout
    linarith
  rcases Nat.eq_zero_or_pos j with hj | hj
  · subst hj
    have e : orbit fractal c 0 = ⟨0, 0⟩ := rfl
    rw [e, iterate_origin fractal c hf]
    calc norm2 c ≤ env.BAILOUT_RADIUS * env.BAILOUT_RADIUS := hc
      _ = env.BAILOUT_RADIUS ^ (0 + 1 + 1) := by ring
  · have hw0 : 0 ≤ norm2 (orbit fractal c j) := by
      unfold norm2
      nlinarith [mul_self_nonneg (orbit fractal c j).real,
        mul_self_nonneg (orbit fractal c j).imag]
    have hcj : norm2 c ≤ env.BAILOUT_RADIUS := by
      have h1 := hin 1 (by omega)
      have e : orbit fractal c 1 = c := by
        rw [orbit_succ]
        exact iterate_origin fractal c hf
      rw [e] at h1
      exact h1
    have hsq : norm2 (orbit fractal c j) * norm2 (orbit fractal c j)
        ≤ env.BAILOUT_RADIUS * env.BAILOUT_RADIUS :=
      mul_le_mul hw hw hw0 hB0
    have h3 : norm2 (iterate fractal (orbit fractal c j) c)
        ≤ env.BAILOUT_RADIUS ^ 3 := by
      have := norm2_iterate_le fractal (orbit fractal c j) c hf
      have hBB : 0 ≤ env.BAILOUT_RADIUS * env.BAILOUT_RADIUS := mul_nonneg hB0 hB0
      nlinarith [mul_le_mul_of_nonneg_right hB hBB]
    calc norm2 (iterate fractal (orbit fractal c j) c) ≤ env.BAILOUT_RADIUS ^ 3 := h3
      _ ≤ env.BAILOUT_RADIUS ^ (j + 1 + 1) := pow_le_pow_right₀ hB1 (by omega)

end SmoothedCount

/-- C11 (as amended): over the reals, with a bailout radius `B ≥ 4` and for every sample
`c` with `|c|^2 ≤ B^2`, every fractal selector and every `maxIterations`, the smoothed
count before the palette offset is added is `≥ 0`. -/
theorem smoothed_count_nonneg (env : Env ℝ) (a : Args ℝ) (x y : Nat)
    (hlog : env.log = Real.log) (hB : 4 ≤ env.BAILOUT_RADIUS)
    (hc : norm2 (sample a x y) ≤ env.BAILOUT_RADIUS * env.BAILOUT_RADIUS) :
    ∃ v, preOffset env a x y = some v ∧ 0 ≤ v := by
  obtain ⟨k, _, h2, h3, h4⟩ := escape_spec env a x y
  refine ⟨_, preOffset_of_escape env a x y _ _ h2, ?_⟩
  unfold smoothed
  split
  · rename_i hlt
    have hk : k < a.maxIterations := by exact_mod_cast hlt
    have hout : env.BAILOUT_RADIUS < norm2 (orbit a.fractal (sample a x y) k) := by
      by_contra hcon
      exact h4 ⟨not_lt.mp hcon, hk⟩
    obtain ⟨_, hpow⟩ := norm2_at_escape env a.fractal (sample a x y) k hB hc h3 hout
    have hBpos : (0 : ℝ) < env.BAILOUT_RADIUS := lt_of_lt_of_le (by norm_num) hB
    have hlogB : 0 < Real.log env.BAILOUT_RADIUS :=
      Real.log_pos (lt_of_lt_of_le (by norm_num) hB)
    have hzpos : 0 < norm2 (orbit a.fractal (sample a x y) k) := lt_trans hBpos hout
    have hL : Real.log (norm2 (orbit a.fractal (sample a x y) k))
        ≤ ((k + 1 : Nat) : ℝ) * Real.log env.BAILOUT_RADIUS := by
      rw [← Real.log_pow]
      exact Real.log_le_log hzpos hpow
    rw [hlog]
    have hdiv : Real.log (norm2 (orbit a.fractal (sample a x y) k))
        / Real.log env.BAILOUT_RADIUS ≤ ((k + 1 : Nat) : ℝ) :=
      (div_le_iff₀ hlogB).mpr hL
    push_cast at hdiv
    linarith
  · exact le_refl _

/-- Witness of `smoothed_count_nonneg`: bailout radius 4 and the sample `c = (2, 2)`. -/
theorem smoothed_count_nonneg_witness :
    ∃ v, preOffset (sampleEnv Real.log) ⟨1, 1, 2, 1, -2, -1, 0, 0⟩ 0 0 = some v ∧ 0 ≤ v :=
  smoothed_count_nonneg (sampleEnv Real.log) ⟨1, 1, 2, 1, -2, -1, 0, 0⟩ 0 0 rfl
    (by norm_num [sampleEnv]) (by norm_num [sample, norm2, u32sub, sampleEnv])

/-- C11 (counterexample): with bailout radius 4 the sample `c = (6, 0)` (Mandelbrot,
`maxIterations = 2`) escapes after one round with `|z|^2 = 36`; its smoothed count
before the offset is `2 - log 36 / log 4`, which is negative. -/
theorem smoothed_count_negative :
    preOffset (sampleEnv Real.log) ⟨1, 1, 2, 1, -6, 1, 0, 0⟩ 0 0
      = some (2 - Real.log 36 / Real.log 4) ∧
    2 - Real.log 36 / Real.log 4 < 0 := by
  constructor
  · have hesc : escape (sampleEnv Real.log) ⟨1, 1, 2, 1, -6, 1, 0, 0⟩ 0 0
        = some (⟨6, 0⟩, 1) := by
      norm_num [escape, escapeLoop, sample, u32sub, iterate, mandelbrot, norm2, sampleEnv]
    unfold preOffset
    rw [hesc]
    norm_num [smoothed, norm2, sampleEnv]
    ring
  · have := log_36_bounds.1
    linarith

/-! ## Degenerate dimensions and scale -/

theorem joinAll_all_some {α : Type} :
    ∀ (l : List (Option α)) (ys : List α), joinAll l = some ys →
      ∀ o, o ∈ l → ∃ y, o = some y := by
  intro l
  induction l with
  | nil => intro ys _ o ho; simp at ho
  | cons x tl ih =>
    intro ys h o ho
    cases x with
    | none => simp [joinAll] at h
    | some v =>
      cases htl : joinAll tl with
      | none => simp [joinAll, htl] at h
      | some vs =>
        rcases List.mem_cons.mp ho with rfl | hmem
        · exact ⟨v, rfl⟩
        · exact ih vs htl o hmem

/-- The store lists of a call that returns are those of its workers. -/
theorem mem_writes_draw {R : Type} [LinearOrderedField R] [FloorRing R]
    (env : Env R) (s : State) (a : Args R) (fuel : Nat) (res : DrawResult)
    (h : draw env s a fuel = some res) :
    (∀ ws, ws ∈ res.writes ↔ ∃ n, n < env.THREAD_COUNT ∧ worker env a n fuel = some ws) ∧
    (∀ n, n < env.THREAD_COUNT → ∃ ws, worker env a n fuel = some ws) := by
  unfold draw at h
  cases hj : joinAll ((List.range env.THREAD_COUNT).map fun n => worker env a n fuel) with
  | none => simp [hj] at h
  | some wss =>
    simp [hj] at h
    subst h
    constructor
    · intro ws
      rw [joinAll_mem _ wss hj ws, List.mem_map]
      constructor
      · rintro ⟨n, hn, hw⟩
        exact ⟨n, List.mem_range.mp hn, hw⟩
      · rintro ⟨n, hn, hw⟩
        exact ⟨n, List.mem_range.mpr hn, hw⟩
    · intro n hn
      exact joinAll_all_some _ wss hj _ (List.mem_map.mpr ⟨n, List.mem_range.mpr hn, rfl⟩)

/-- A worker of a call with `width = 0` or `height = 0` stores nothing. -/
theorem worker_zero_dim {R : Type} [LinearOrderedField R] [FloorRing R]
    (env : Env R) (a : Args R) (hz : a.width = 0 ∨ a.height = 0) (n fuel : Nat)
    (ws : List Write) (h : worker env a n fuel = some ws) : ws = [] := by
  unfold worker at h
  cases hr : rowLoop env.THREAD_COUNT a.height fuel n with
  | none => simp [hr] at h
  | some rows =>
    simp [hr] at h
    subst h
    rcases hz with hw | hh
    · simp [rowWrites, hw]
    · rw [hh] at hr
      cases fuel with
      | zero => simp [rowLoop] at hr
      | succ f =>
        rw [rowLoop_succ_ge f (Nat.zero_le n)] at hr
        cases hr
        rfl

/-- With two workers and `height = 2^32 - 1` the row counter of worker 0 stays even and
never reaches `height`. -/
theorem rowLoop_even_diverges :
    ∀ (fuel y : Nat), y % 2 = 0 → y < 4294967296 → rowLoop 2 4294967295 fuel y = none := by
  intro fuel
  induction fuel with
  | zero => intro y _ _; rfl
  | succ fuel ih =>
    intro y h1 h2
    rw [rowLoop_succ_lt fuel (by omega), ih _ (by omega) (Nat.mod_lt _ (by norm_num))]
    rfl

/-- C12 (as amended): in a call of `draw` with `width = 0` or `height = 0` no worker
stores a byte; when `height = 0`, or `width = 0` and `height + THREAD_COUNT ≤ 2^32`,
every worker's row loop terminates and the call returns without any store. -/
theorem zero_dimensions {R : Type} [LinearOrderedField R] [FloorRing R]
    (env : Env R) (a : Args R) (hT : 1 ≤ env.THREAD_COUNT)
    (hz : a.width = 0 ∨ a.height = 0) :
    (∀ n fuel ws, worker env a n fuel = some ws → ws = []) ∧
    (a.height = 0 ∨ a.height + env.THREAD_COUNT ≤ 4294967296 →
      ∀ fuel, a.height < fuel →
        (∀ n, n < env.THREAD_COUNT → worker env a n fuel = some []) ∧
        ∀ s, ∃ res, draw env s a fuel = some res ∧ res.writes.flatten = []) := by
  have hnone := worker_zero_dim env a hz
  refine ⟨hnone, ?_⟩
  intro hterm fuel hfuel
  have hfin : ∀ n, n < env.THREAD_COUNT → worker env a n fuel = some [] := by
    intro n hn
    rcases hterm with hh | hwrap
    · obtain ⟨f, rfl⟩ : ∃ f, fuel = f + 1 := ⟨fuel - 1, by omega⟩
      unfold worker
      rw [hh, rowLoop_succ_ge f (Nat.zero_le n)]
      rfl
    · obtain ⟨ws, hws⟩ := worker_finishes env a fuel hT hwrap hfuel n hn
      rw [hws, hnone n fuel ws hws]
  refine ⟨hfin, ?_⟩
  intro s
  obtain ⟨res, hres⟩ := draw_returns env s a fuel (fun n hn => ⟨[], hfin n hn⟩)
  refine ⟨res, hres, ?_⟩
  rw [List.eq_nil_iff_forall_not_mem]
  intro w hw
  rw [List.mem_flatten] at hw
  obtain ⟨ws, hws, hwin⟩ := hw
  obtain ⟨n, _, hn⟩ := ((mem_writes_draw env s a fuel res hres).1 ws).mp hws
  rw [hnone n fuel ws hn] at hwin
  simp at hwin

/-- Witness of `zero_dimensions`: `width = 0` and `height = 5` with two workers. -/
theorem zero_dimensions_witness :
    (∀ n, n < ratEnv.THREAD_COUNT → worker ratEnv ⟨0, 5, 10, 1, 0, 0, 0, 0⟩ n 6 = some []) ∧
    ∀ s, ∃ res, draw ratEnv s ⟨0, 5, 10, 1, 0, 0, 0, 0⟩ 6 = some res ∧
      res.writes.flatten = [] :=
  (zero_dimensions ratEnv ⟨0, 5, 10, 1, 0, 0, 0, 0⟩ (by decide) (Or.inl rfl)).2
    (Or.inr (by decide)) 6 (by decide)

/-- C12 (counterexample): for `width = 0` and `height = 2^32 - 1` with two workers the
row loop of worker 0 never terminates (its counter wraps from 4294967294 to 0), so the
call of `draw` never returns. -/
theorem zero_width_diverges :
    (¬ ∃ fuel rows, rowLoop ratEnv.THREAD_COUNT 4294967295 fuel 0 = some rows) ∧
    (¬ ∃ fuel ws, worker ratEnv ⟨0, 4294967295, 10, 1, 0, 0, 0, 0⟩ 0 fuel = some ws) ∧
    (¬ ∃ fuel res, draw ratEnv State.initial ⟨0, 4294967295, 10, 1, 0, 0, 0, 0⟩ fuel
        = some res) := by
  have hrow : ∀ fuel, rowLoop ratEnv.THREAD_COUNT 4294967295 fuel 0 = none := fun fuel =>
    rowLoop_even_diverges fuel 0 (by norm_num) (by norm_num)
  have hworker : ∀ fuel, worker ratEnv ⟨0, 4294967295, 10, 1, 0, 0, 0, 0⟩ 0 fuel = none := by
    intro fuel
    unfold worker
    rw [hrow fuel]
    rfl
  refine ⟨?_, ?_, ?_⟩
  · rintro ⟨fuel, rows, h⟩
    rw [hrow fuel] at h
    cases h
  · rintro ⟨fuel, ws, h⟩
    rw [hworker fuel] at h
    cases h
  · rintro ⟨fuel, res, h⟩
    obtain ⟨ws, hws⟩ := (mem_writes_draw ratEnv _ _ fuel res h).2 0 (by decide)
    rw [hworker fuel] at hws
    cases hws

/-- C13: with `scaleFactor = 0` every pixel `(x, y)` is evaluated at the sample
`c = (-offsetX, -offsetY)`, and the four bytes stored are the same for all pixels. -/
theorem zero_scale {R : Type} [LinearOrderedField R] [FloorRing R]
    (env : Env R) (a : Args R) (hs : a.scaleFactor = 0) :
    (∀ x y, sample a x y = ⟨-a.offsetX, -a.offsetY⟩) ∧
    (∀ x y x2 y2,
      (pixelWrites env a y x).map Prod.snd = (pixelWrites env a y2 x2).map Prod.snd) := by
  have hsample : ∀ x y, sample a x y = ⟨-a.offsetX, -a.offsetY⟩ := by
    intro x y
    simp [sample, hs]
  refine ⟨hsample, ?_⟩
  intro x y x2 y2
  have hpost : postOffset env a x y = postOffset env a x2 y2 := by
    unfold postOffset preOffset escape
    rw [hsample x y, hsample x2 y2]
  unfold pixelWrites
  rw [hpost]
  simp [storePixel]

/-- Witness of `zero_scale`: a 2 x 2 image with offsets (1, 1). -/
theorem zero_scale_witness :
    sample (⟨2, 2, 3, 0, 1, 1, 0, 0⟩ : Args ℚ) 1 0 = ⟨-1, -1⟩ ∧
    (pixelWrites ratEnv ⟨2, 2, 3, 0, 1, 1, 0, 0⟩ 0 0).map Prod.snd
      = (pixelWrites ratEnv ⟨2, 2, 3, 0, 1, 1, 0, 0⟩ 1 1).map Prod.snd :=
  ⟨(zero_scale ratEnv ⟨2, 2, 3, 0, 1, 1, 0, 0⟩ rfl).1 1 0,
    (zero_scale ratEnv ⟨2, 2, 3, 0, 1, 1, 0, 0⟩ rfl).2 0 0 1 1⟩

/-! ## Range of the interpolation -/

/-- C18: for `0 ≤ f ≤ 1`, `lerp(a, b, f)` lies between `min(a, b)` and `max(a, b)`, with
`lerp(a, b, 0) = a` and `lerp(a, b, 1) = b`; for channels in 0..255 and `f < 1` the
interpolated channel lies in `[0, 255]`, so the conversion to a byte is defined and is
the truncation of the value. -/
theorem lerp_between {R : Type} [LinearOrderedField R] [FloorRing R]
    (a b f : R) (hf0 : 0 ≤ f) (hf1 : f ≤ 1) :
    min a b ≤ lerp a b f ∧ lerp a b f ≤ max a b ∧ lerp a b 0 = a ∧ lerp a b 1 = b ∧
    (∀ c1 c2 : Nat, c1 < 256 → c2 < 256 → f < 1 →
      0 ≤ lerp (c1 : R) (c2 : R) f ∧ lerp (c1 : R) (c2 : R) f ≤ 255 ∧
      ∃ byte, channel c1 c2 f = some byte ∧ byte ≤ 255 ∧
        (byte : R) ≤ lerp (c1 : R) (c2 : R) f ∧ lerp (c1 : R) (c2 : R) f < (byte : R) + 1) := by
  have hg : 0 ≤ 1 - f := by linarith
  have key : ∀ lo hi u v : R, lo ≤ u → lo ≤ v → u ≤ hi → v ≤ hi →
      lo ≤ lerp u v f ∧ lerp u v f ≤ hi := by
    intro lo hi u v h1 h2 h3 h4
    have p1 := mul_le_mul_of_nonneg_right h1 hg
    have p2 := mul_le_mul_of_nonneg_right h2 hf0
    have p3 := mul_le_mul_of_nonneg_right h3 hg
    have p4 := mul_le_mul_of_nonneg_right h4 hf0
    unfold lerp
    constructor <;> nlinarith
  obtain ⟨k1, k2⟩ := key (min a b) (max a b) a b (min_le_left a b) (min_le_right a b)
    (le_max_left a b) (le_max_right a b)
  refine ⟨k1, k2, by simp [lerp], by simp [lerp], ?_⟩
  intro c1 c2 h1 h2 hlt
  have hc1 : (c1 : R) ≤ 255 := by exact_mod_cast Nat.le_of_lt_succ h1
  have hc2 : (c2 : R) ≤ 255 := by exact_mod_cast Nat.le_of_lt_succ h2
  obtain ⟨l1, l2⟩ := key 0 255 (c1 : R) (c2 : R) (Nat.cast_nonneg c1) (Nat.cast_nonneg c2)
    hc1 hc2
  refine ⟨l1, l2, ⌊lerp (c1 : R) (c2 : R) f⌋₊, channel_of_fraction c1 c2 f h1 h2 hf0 hlt,
    ?_, Nat.floor_le l1, Nat.lt_floor_add_one _⟩
  have : ⌊lerp (c1 : R) (c2 : R) f⌋₊ < 256 := (Nat.floor_lt l1).mpr (by
    push_cast
    linarith)
  omega

/-- Witness of `lerp_between`: halfway between 0 and 10. -/
theorem lerp_between_witness :
    min (0 : ℚ) 10 ≤ lerp 0 10 (1 / 2) ∧ lerp (0 : ℚ) 10 (1 / 2) ≤ max 0 10 :=
  ⟨(lerp_between (0 : ℚ) 10 (1 / 2) (by norm_num) (by norm_num)).1,
    (lerp_between (0 : ℚ) 10 (1 / 2) (by norm_num) (by norm_num)).2.1⟩

/-! ## Memory after the stores of a call -/

theorem applyWrites_cons (m : Mem) (w : Write) (ws : List Write) :
    applyWrites m (w :: ws) = applyWrites (Function.update m w.1 w.2) ws := rfl

theorem applyWrites_append (m : Mem) (l1 l2 : List Write) :
    applyWrites m (l1 ++ l2) = applyWrites (applyWrites m l1) l2 := by
  unfold applyWrites
  rw [List.foldl_append]

/-- An offset that no store of the list addresses keeps its content. -/
theorem applyWrites_untouched :
    ∀ (ws : List Write) (m : Mem) (o : Nat), (∀ w, w ∈ ws → w.1 ≠ o) →
      applyWrites m ws o = m o := by
  intro ws
  induction ws with
  | nil => intro m o _; rfl
  | cons w tl ih =>
    intro m o h
    rw [applyWrites_cons, ih _ o (fun w2 hw2 => h w2 (List.mem_cons_of_mem w hw2))]
    exact Function.update_noteq (fun e => h w (List.mem_cons_self w tl) e.symm) _ _

/-- An offset that some store addresses, all stores to it carrying the value `v`, holds
`v` afterwards. -/
theorem applyWrites_value :
    ∀ (ws : List Write) (m : Mem) (o : Nat) (v : Option Nat),
      (∀ w, w ∈ ws → w.1 = o → w.2 = v) → (∃ w, w ∈ ws ∧ w.1 = o) →
      applyWrites m ws o = v := by
  intro ws
  induction ws with
  | nil =>
    intro m o v _ h
    obtain ⟨w, hw, _⟩ := h
    simp at hw
  | cons w tl ih =>
    intro m o v hall hex
    rw [applyWrites_cons]
    by_cases htl : ∃ w2, w2 ∈ tl ∧ w2.1 = o
    · exact ih _ o v (fun w2 hw2 => hall w2 (List.mem_cons_of_mem w hw2)) htl
    · have hno : ∀ w2, w2 ∈ tl → w2.1 ≠ o := fun w2 hw2 e => htl ⟨w2, hw2, e⟩
      rw [applyWrites_untouched tl _ o hno]
      obtain ⟨w3, hw3, e3⟩ := hex
      rcases List.mem_cons.mp hw3 with rfl | hin
      · rw [← e3, Function.update_same]
        exact hall w3 (List.mem_cons_self w3 tl) e3
      · exact absurd e3 (hno w3 hin)

/-- Two lists of stores with the same elements, in which stores to one offset carry one
value, leave the same content at every offset they address. -/
theorem applyWrites_written (l1 l2 : List Write) (m1 m2 : Mem) (o : Nat)
    (hmem : ∀ w, w ∈ l1 ↔ w ∈ l2)
    (hfun : ∀ w w2, w ∈ l1 → w2 ∈ l1 → w.1 = w2.1 → w.2 = w2.2)
    (hex : ∃ w, w ∈ l1 ∧ w.1 = o) :
    applyWrites m1 l1 o = applyWrites m2 l2 o := by
  obtain ⟨w0, hw0, e0⟩ := hex
  rw [applyWrites_value l1 m1 o w0.2 (fun w hw e => hfun w w0 hw hw0 (e.trans e0.symm))
      ⟨w0, hw0, e0⟩,
    applyWrites_value l2 m2 o w0.2
      (fun w hw e => hfun w w0 ((hmem w).mpr hw) hw0 (e.trans e0.symm))
      ⟨w0, (hmem w0).mp hw0, e0⟩]

/-- Two such lists, run on the same memory, leave the same memory. -/
theorem applyWrites_congr (l1 l2 : List Write) (m : Mem)
    (hmem : ∀ w, w ∈ l1 ↔ w ∈ l2)
    (hfun : ∀ w w2, w ∈ l1 → w2 ∈ l1 → w.1 = w2.1 → w.2 = w2.2) :
    applyWrites m l1 = applyWrites m l2 := by
  funext o
  by_cases hex : ∃ w, w ∈ l1 ∧ w.1 = o
  · exact applyWrites_written l1 l2 m m o hmem hfun hex
  · rw [applyWrites_untouched l1 m o (fun w hw e => hex ⟨w, hw, e⟩),
      applyWrites_untouched l2 m o (fun w hw e => hex ⟨w, (hmem w).mpr hw, e⟩)]

/-- Stores that all lie inside the block are performed one after the other. -/
theorem runStores_in_bounds (len : Nat) :
    ∀ (ws : List Write) (m : Mem), (∀ w, w ∈ ws → w.1 < len) →
      runStores len m ws = some (applyWrites m ws) := by
  intro ws
  induction ws with
  | nil => intro m _; rfl
  | cons w tl ih =>
    intro m h
    rw [runStores, if_pos (h w (List.mem_cons_self w tl)), applyWrites_cons]
    exact ih _ (fun w2 hw2 => h w2 (List.mem_cons_of_mem w hw2))

/-- A list with a store outside the block has no defined outcome. -/
theorem runStores_overflow (len : Nat) :
    ∀ (ws : List Write) (m : Mem), (∃ w, w ∈ ws ∧ len ≤ w.1) →
      runStores len m ws = none := by
  intro ws
  induction ws with
  | nil =>
    intro m h
    obtain ⟨w, hw, _⟩ := h
    simp at hw
  | cons w tl ih =>
    intro m h
    rw [runStores]
    split
    · rename_i hlt
      obtain ⟨w2, hw2, hge⟩ := h
      rcases List.mem_cons.mp hw2 with rfl | hin
      · omega
      · exact ih _ ⟨w2, hin, hge⟩
    · rfl

/-- An interleaving performs exactly the stores of the threads. -/
theorem interleaving_mem (wss : List (List Write)) (l : List Write)
    (h : Interleaving wss l) : ∀ w, w ∈ l ↔ w ∈ wss.flatten := by
  induction h with
  | done wss hall =>
    intro w
    constructor
    · intro hw; simp at hw
    · intro hw
      rw [List.mem_flatten] at hw
      obtain ⟨ws, hws, hin⟩ := hw
      rw [hall ws hws] at hin
      simp at hin
  | step pre w0 ws post l _ ih =>
    intro w
    rw [List.mem_cons, ih w]
    simp only [List.flatten_append, List.flatten_cons, List.mem_append, List.mem_cons]
    tauto

theorem interleaving_idle (wss : List (List Write)) (l : List Write)
    (h : Interleaving wss l) : Interleaving ([] :: wss) l := by
  induction h with
  | done wss hall =>
    refine Interleaving.done _ ?_
    intro ws hws
    rcases List.mem_cons.mp hws with rfl | hin
    · rfl
    · exact hall ws hin
  | step pre w0 ws post l _ ih =>
    exact Interleaving.step ([] :: pre) w0 ws post l ih

/-- Running the threads one after the other, in the order of their numbers, is an
interleaving. -/
theorem interleaving_flatten : ∀ wss : List (List Write), Interleaving wss wss.flatten := by
  intro wss
  induction wss with
  | nil => exact Interleaving.done [] (fun ws hws => by simp at hws)
  | cons ws tl ih =>
    induction ws with
    | nil => exact interleaving_idle tl _ ih
    | cons w ws ih2 => exact Interleaving.step [] w ws tl _ ih2

/-! ## Workers against the sequential loop -/

theorem escapeLoop_threads {R : Type} [LinearOrderedField R] (env : Env R) (T2 maxIterations fractal : Nat)
    (c : complex_t R) :
    ∀ (fuel : Nat) (z : complex_t R) (it : R),
      escapeLoop { env with THREAD_COUNT := T2 } maxIterations fractal c fuel z it
        = escapeLoop env maxIterations fractal c fuel z it := by
  intro fuel
  induction fuel with
  | zero => intro z it; rfl
  | succ fuel ih =>
    intro z it
    simp only [escapeLoop]
    rw [ih]

section Refinement

variable {R : Type} [LinearOrderedField R] [FloorRing R]

theorem mem_rowWrites (env : Env R) (a : Args R) (y : Nat) (w : Write) :
    w ∈ rowWrites env a y ↔ ∃ x, x < a.width ∧ w ∈ pixelWrites env a y x := by
  simp only [rowWrites, List.mem_flatMap, List.mem_range]

/-- The stores of a worker: those of the pixels `(x, y)` with `y` a row its loop visits
and `x < width`. -/
theorem mem_worker (env : Env R) (a : Args R) {n fuel : Nat} {rows : List Nat}
    (hrows : rowLoop env.THREAD_COUNT a.height fuel n = some rows) :
    ∃ ws, worker env a n fuel = some ws ∧
      ∀ w, w ∈ ws ↔ ∃ y, y ∈ rows ∧ ∃ x, x < a.width ∧ w ∈ pixelWrites env a y x := by
  refine ⟨rows.flatMap fun y => rowWrites env a y, by simp [worker, hrows], ?_⟩
  intro w
  simp only [List.mem_flatMap, mem_rowWrites]

theorem mem_sequentialWrites (env : Env R) (a : Args R) (w : Write) :
    w ∈ sequentialWrites env a ↔
      ∃ y x, y < a.height ∧ x < a.width ∧ w ∈ pixelWrites env a y x := by
  simp only [sequentialWrites, List.mem_flatMap, List.mem_range, mem_rowWrites]
  constructor
  · rintro ⟨y, hy, x, hx, hw⟩
    exact ⟨y, x, hy, hx, hw⟩
  · rintro ⟨y, x, hy, hx, hw⟩
    exact ⟨y, hy, x, hx, hw⟩

/-- Without wrap-around the stores of the workers of a call are those of the pixels
`(x, y)` with `y < height` and `x < width`. -/
theorem mem_flatten_draw (env : Env R) (s : State) (a : Args R) (fuel : Nat)
    (res : DrawResult) (hT : 1 ≤ env.THREAD_COUNT)
    (hwrap : a.height + env.THREAD_COUNT ≤ 4294967296) (hfuel : a.height < fuel)
    (hres : draw env s a fuel = some res) (w : Write) :
    w ∈ res.writes.flatten ↔
      ∃ y x, y < a.height ∧ x < a.width ∧ w ∈ pixelWrites env a y x := by
  have hkey := rowLoop_stripe env.THREAD_COUNT a.height fuel hT hwrap hfuel
  have hmem := (mem_writes_draw env s a fuel res hres).1
  rw [List.mem_flatten]
  constructor
  · rintro ⟨ws, hws, hw⟩
    obtain ⟨n, hn, hwn⟩ := (hmem ws).mp hws
    obtain ⟨rows, hrows, _, hr⟩ := hkey n hn
    obtain ⟨ws2, hws2, hc⟩ := mem_worker env a hrows
    rw [hwn] at hws2
    cases hws2
    obtain ⟨y, hy, x, hx, hwx⟩ := (hc w).mp hw
    exact ⟨y, x, ((hr y).mp hy).1, hx, hwx⟩
  · rintro ⟨y, x, hy, hx, hwx⟩
    have hn : y % env.THREAD_COUNT < env.THREAD_COUNT := Nat.mod_lt _ (by omega)
    obtain ⟨rows, hrows, _, hr⟩ := hkey _ hn
    obtain ⟨ws, hws, hc⟩ := mem_worker env a hrows
    exact ⟨ws, (hmem ws).mpr ⟨_, hn, hws⟩,
      (hc w).mpr ⟨y, (hr y).mpr ⟨hy, rfl⟩, x, hx, hwx⟩⟩

/-- The four stores of a pixel address four different offsets. -/
theorem storePixel_functional (env : Env R) (pos : Nat) (it : Option R)
    (hpos : pos + 3 < 4294967296) (w w2 : Write)
    (hw : w ∈ storePixel env pos it) (hw2 : w2 ∈ storePixel env pos it)
    (h : w.1 = w2.1) : w.2 = w2.2 := by
  have e1 : (pos + 1) % 4294967296 = pos + 1 := Nat.mod_eq_of_lt (by omega)
  have e2 : (pos + 2) % 4294967296 = pos + 2 := Nat.mod_eq_of_lt (by omega)
  have e3 : (pos + 3) % 4294967296 = pos + 3 := Nat.mod_eq_of_lt (by omega)
  simp only [storePixel, e1, e2, e3, List.mem_cons, List.mem_singleton, List.not_mem_nil,
    or_false] at hw hw2
  rcases hw with rfl | rfl | rfl | rfl <;> rcases hw2 with rfl | rfl | rfl | rfl <;>
    first
      | rfl
      | (exfalso; simp only at h; omega)

/-- Without overflow, stores of pixels of the image to one offset carry one value. -/
theorem pixelWrites_functional (env : Env R) (a : Args R)
    (hsize : a.width * a.height * 4 ≤ 4294967296) (w w2 : Write)
    (hw : ∃ y x, y < a.height ∧ x < a.width ∧ w ∈ pixelWrites env a y x)
    (hw2 : ∃ y x, y < a.height ∧ x < a.width ∧ w2 ∈ pixelWrites env a y x)
    (h : w.1 = w2.1) : w.2 = w2.2 := by
  obtain ⟨y, x, hy, hx, hin⟩ := hw
  obtain ⟨y2, x2, hy2, hx2, hin2⟩ := hw2
  have ho : w.1 ∈ writeOffsets (pixelWrites env a y x) := List.mem_map.mpr ⟨w, hin, rfl⟩
  have ho2 : w.1 ∈ writeOffsets (pixelWrites env a y2 x2) := by
    rw [h]
    exact List.mem_map.mpr ⟨w2, hin2, rfl⟩
  rw [mem_offsets_pixel env a hsize hy hx] at ho
  rw [mem_offsets_pixel env a hsize hy2 hx2] at ho2
  have hyy := row_of_offset hx hx2 ho ho2
  subst hyy
  have hxx : x = x2 := by omega
  subst hxx
  obtain ⟨hp, hb⟩ := pixelPos_eq hsize hy hx
  unfold pixelWrites at hin hin2
  exact storePixel_functional env _ _ (by omega) w w2 hin hin2 h

/-- Without overflow and wrap-around every interleaving of the workers of a call leaves
the memory that the sequential loop leaves. -/
theorem draw_refines_sequential (env : Env R) (s : State) (a : Args R) (fuel : Nat)
    (res : DrawResult) (hT : 1 ≤ env.THREAD_COUNT)
    (hsize : a.width * a.height * 4 ≤ 4294967296)
    (hwrap : a.height + env.THREAD_COUNT ≤ 4294967296) (hfuel : a.height < fuel)
    (hres : draw env s a fuel = some res) (l : List Write)
    (hl : Interleaving res.writes l) (m : Mem) :
    applyWrites m l = applyWrites m (sequentialWrites env a) := by
  have hmem : ∀ w, w ∈ l ↔ ∃ y x, y < a.height ∧ x < a.width ∧ w ∈ pixelWrites env a y x :=
    fun w => (interleaving_mem _ _ hl w).trans
      (mem_flatten_draw env s a fuel res hT hwrap hfuel hres w)
  apply applyWrites_congr
  · intro w
    rw [hmem w, mem_sequentialWrites]
  · intro w w2 hw hw2 h
    exact pixelWrites_functional env a hsize w w2 ((hmem w).mp hw) ((hmem w2).mp hw2) h

/-- The sequential loop does not depend on the number of workers. -/
theorem sequentialWrites_threads (env : Env R) (T2 : Nat) (a : Args R) :
    sequentialWrites { env with THREAD_COUNT := T2 } a = sequentialWrites env a := by
  have hpix : ∀ y x, pixelWrites { env with THREAD_COUNT := T2 } a y x
      = pixelWrites env a y x := by
    intro y x
    have hpost : postOffset { env with THREAD_COUNT := T2 } a x y = postOffset env a x y := by
      unfold postOffset preOffset escape
      rw [escapeLoop_threads]
      rfl
    unfold pixelWrites
    rw [hpost]
    rfl
  unfold sequentialWrites rowWrites
  simp only [hpix]

/-- C16: under the precondition `width * height * 4 < 2^32` and
`height + THREAD_COUNT ≤ 2^32`, a call of `draw` returns, and whatever the order in
which the stores of its workers take effect, the memory afterwards is the one left by a
single sequential loop over all rows and columns; hence it is the same for every
number `T2 ≥ 1` of workers (with `height + T2 ≤ 2^32`). -/
theorem worker_count_independent (env : Env R) (s : State) (a : Args R) (fuel : Nat)
    (hT : 1 ≤ env.THREAD_COUNT) (hsize : a.width * a.height * 4 < 4294967296)
    (hwrap : a.height + env.THREAD_COUNT ≤ 4294967296) (hfuel : a.height < fuel) :
    ∃ res, draw env s a fuel = some res ∧
      Interleaving res.writes res.writes.flatten ∧
      (∀ l m, Interleaving res.writes l →
        applyWrites m l = applyWrites m (sequentialWrites env a)) ∧
      (∀ T2, 1 ≤ T2 → a.height + T2 ≤ 4294967296 →
        ∃ res2, draw { env with THREAD_COUNT := T2 } s a fuel = some res2 ∧
          ∀ l l2 m, Interleaving res.writes l → Interleaving res2.writes l2 →
            applyWrites m l2 = applyWrites m l) := by
  obtain ⟨res, hres⟩ := draw_returns env s a fuel (worker_finishes env a fuel hT hwrap hfuel)
  have hseq : ∀ l m, Interleaving res.writes l →
      applyWrites m l = applyWrites m (sequentialWrites env a) := fun l m hl =>
    draw_refines_sequential env s a fuel res hT (by omega) hwrap hfuel hres l hl m
  refine ⟨res, hres, interleaving_flatten _, hseq, ?_⟩
  intro T2 hT2 hwrap2
  obtain ⟨res2, hres2⟩ := draw_returns { env with THREAD_COUNT := T2 } s a fuel
    (worker_finishes { env with THREAD_COUNT := T2 } a fuel hT2 hwrap2 hfuel)
  refine ⟨res2, hres2, ?_⟩
  intro l l2 m hl hl2
  rw [hseq l m hl, draw_refines_sequential { env with THREAD_COUNT := T2 } s a fuel res2 hT2
    (by omega) hwrap2 hfuel hres2 l2 hl2 m, sequentialWrites_threads]

end Refinement

/-- Witness of `worker_count_independent`: a 2 x 2 image drawn by two workers. -/
theorem worker_count_independent_witness :
    ∃ res, draw ratEnv State.initial ⟨2, 2, 3, 1, 0, 0, 0, 0⟩ 3 = some res ∧
      Interleaving res.writes res.writes.flatten ∧
      ∀ l m, Interleaving res.writes l →
        applyWrites m l = applyWrites m (sequentialWrites ratEnv ⟨2, 2, 3, 1, 0, 0, 0, 0⟩) := by
  obtain ⟨res, h1, h2, h3, _⟩ := worker_count_independent ratEnv State.initial
    ⟨2, 2, 3, 1, 0, 0, 0, 0⟩ 3 (by decide) (by decide) (by decide) (by decide)
  exact ⟨res, h1, h2, h3⟩

/-- Without overflow every store of a pixel of the image lies below
`width * height * 4`. -/
theorem pixel_store_in_bounds {R : Type} [LinearOrderedField R] [FloorRing R]
    (env : Env R) (a : Args R) (hsize : a.width * a.height * 4 ≤ 4294967296) (w : Write)
    (hw : ∃ y x, y < a.height ∧ x < a.width ∧ w ∈ pixelWrites env a y x) :
    w.1 < a.width * a.height * 4 := by
  obtain ⟨y, x, hy, hx, hin⟩ := hw
  have ho : w.1 ∈ writeOffsets (pixelWrites env a y x) := List.mem_map.mpr ⟨w, hin, rfl⟩
  rw [mem_offsets_pixel env a hsize hy hx] at ho
  have := (pixelPos_eq hsize hy hx).2
  omega

/-- C14 (as amended): for arguments with `0 < width * height * 4 < 2^32` and
`height + THREAD_COUNT ≤ 2^32`, in any two states reached from the initial one the call
returns a buffer of `width * height * 4` bytes; whatever the earlier contents of memory
and the order in which the stores of the workers take effect, every store lies inside
the returned buffer, and every byte of the buffer holds the same value in both runs. -/
theorem draw_deterministic {R : Type} [LinearOrderedField R] [FloorRing R]
    (env : Env R) (calls1 calls2 : List (Args R)) (s1 s2 : State) (a : Args R) (fuel : Nat)
    (hT : 1 ≤ env.THREAD_COUNT)
    (hreach1 : drawSeq env fuel State.initial calls1 = some s1)
    (hreach2 : drawSeq env fuel State.initial calls2 = some s2)
    (hpos : 0 < a.width * a.height * 4) (hsize : a.width * a.height * 4 < 4294967296)
    (hwrap : a.height + env.THREAD_COUNT ≤ 4294967296) (hfuel : a.height < fuel) :
    ∃ res1 res2, draw env s1 a fuel = some res1 ∧ draw env s2 a fuel = some res2 ∧
      allocLen res1.ret = a.width * a.height * 4 ∧
      allocLen res2.ret = a.width * a.height * 4 ∧
      ∀ l1 l2 m1 m2, Interleaving res1.writes l1 → Interleaving res2.writes l2 →
        runStores (allocLen res1.ret) m1 l1 = some (applyWrites m1 l1) ∧
        runStores (allocLen res2.ret) m2 l2 = some (applyWrites m2 l2) ∧
        ∀ o, o < a.width * a.height * 4 → applyWrites m1 l1 o = applyWrites m2 l2 o := by
  have hfin := worker_finishes env a fuel hT hwrap hfuel
  obtain ⟨res1, hres1⟩ := draw_returns env s1 a fuel hfin
  obtain ⟨res2, hres2⟩ := draw_returns env s2 a fuel hfin
  have hds : drawSize a.width a.height = a.width * a.height * 4 := by
    rw [drawSize_eq, Nat.mod_eq_of_lt hsize]
  have hlen : ∀ (calls : List (Args R)) (s : State) (res : DrawResult),
      drawSeq env fuel State.initial calls = some s → draw env s a fuel = some res →
      allocLen res.ret = a.width * a.height * 4 := by
    intro calls s res hreach hres
    have hp : s.prevSize = 0 := drawSeq_prevSize env fuel calls _ s hreach
    rw [(draw_state env s a fuel res hres).2, resize_len s _ hp (by omega), hds]
    rfl
  have hlen1 := hlen calls1 s1 res1 hreach1 hres1
  have hlen2 := hlen calls2 s2 res2 hreach2 hres2
  refine ⟨res1, res2, hres1, hres2, hlen1, hlen2, ?_⟩
  intro l1 l2 m1 m2 hl1 hl2
  have hmem1 : ∀ w, w ∈ l1 ↔
      ∃ y x, y < a.height ∧ x < a.width ∧ w ∈ pixelWrites env a y x := fun w =>
    (interleaving_mem _ _ hl1 w).trans
      (mem_flatten_draw env s1 a fuel res1 hT hwrap hfuel hres1 w)
  have hmem2 : ∀ w, w ∈ l2 ↔
      ∃ y x, y < a.height ∧ x < a.width ∧ w ∈ pixelWrites env a y x := fun w =>
    (interleaving_mem _ _ hl2 w).trans
      (mem_flatten_draw env s2 a fuel res2 hT hwrap hfuel hres2 w)
  refine ⟨?_, ?_, ?_⟩
  · rw [hlen1]
    exact runStores_in_bounds _ l1 m1
      (fun w hw => pixel_store_in_bounds env a (by omega) w ((hmem1 w).mp hw))
  · rw [hlen2]
    exact runStores_in_bounds _ l2 m2
      (fun w hw => pixel_store_in_bounds env a (by omega) w ((hmem2 w).mp hw))
  · intro o ho
    apply applyWrites_written l1 l2 m1 m2 o
    · intro w
      rw [hmem1 w, hmem2 w]
    · intro w w2 hw hw2 h
      exact pixelWrites_functional env a (by omega) w w2 ((hmem1 w).mp hw)
        ((hmem1 w2).mp hw2) h
    · have hcov := (offsets_cover env a fuel hT (by omega) hwrap hfuel o).mpr ho
      have hoff := (mem_offsets_draw env s1 a fuel res1 hres1 o).mpr hcov
      unfold DrawResult.offsets at hoff
      obtain ⟨w, hw, hwo⟩ := List.mem_map.mp hoff
      exact ⟨w, (interleaving_mem _ _ hl1 w).mpr hw, hwo⟩

/-- Witness of `draw_deterministic`: a 2 x 2 image drawn as the first call and drawn
after an earlier call for a 1 x 1 image. -/
theorem draw_deterministic_witness :
    ∃ res1 res2, draw ratEnv State.initial ⟨2, 2, 3, 1, 0, 0, 0, 0⟩ 3 = some res1 ∧
      draw ratEnv ⟨some ⟨0, 4⟩, 0, 1, []⟩ ⟨2, 2, 3, 1, 0, 0, 0, 0⟩ 3 = some res2 ∧
      allocLen res1.ret = 2 * 2 * 4 ∧ allocLen res2.ret = 2 * 2 * 4 ∧
      ∀ l1 l2 m1 m2, Interleaving res1.writes l1 → Interleaving res2.writes l2 →
        runStores (allocLen res1.ret) m1 l1 = some (applyWrites m1 l1) ∧
        runStores (allocLen res2.ret) m2 l2 = some (applyWrites m2 l2) ∧
        ∀ o, o < 2 * 2 * 4 → applyWrites m1 l1 o = applyWrites m2 l2 o :=
  draw_deterministic ratEnv [] [⟨1, 1, 10, 1, 0, 0, 0, 0⟩] State.initial
    ⟨some ⟨0, 4⟩, 0, 1, []⟩ ⟨2, 2, 3, 1, 0, 0, 0, 0⟩ 3 (by decide) rfl (by rfl) (by decide)
    (by decide) (by decide) (by decide)

/-- C14 (counterexample): `draw(2^30 + 1, 2, ...)` as the first call, with two workers.
The 32-bit size wraps to 8, so the call returns a block of 8 bytes, while the pixel
`(2, 0)` is stored at `pos = 8`, outside the block.  In whatever order the stores of the
workers take effect, the run overflows the block and is undefined: the call yields no
buffer contents, let alone the same ones in every run. -/
theorem draw_overflows_block :
    ∃ res, draw ratEnv State.initial wrapSample 3 = some res ∧
      allocLen res.ret = 8 ∧ 8 ∈ res.offsets ∧
      ∀ l m, Interleaving res.writes l → runStores (allocLen res.ret) m l = none := by
  have hfin : ∀ n, n < ratEnv.THREAD_COUNT → ∃ ws, worker ratEnv wrapSample n 3 = some ws :=
    worker_finishes ratEnv _ 3 (by decide) (by decide) (by decide)
  obtain ⟨res, hres⟩ := draw_returns ratEnv State.initial _ 3 hfin
  have hlen : allocLen res.ret = 8 := by
    rw [(draw_state ratEnv _ _ 3 res hres).2]
    rfl
  have hoff : 8 ∈ res.offsets := by
    rw [mem_offsets_draw ratEnv _ _ 3 res hres 8]
    have hr0 : rowLoop ratEnv.THREAD_COUNT (wrapSample : Args ℚ).height 3 0 = some [0] := by
      simp [rowLoop, ratEnv, sampleEnv, wrapSample]
    obtain ⟨ws, hws, hc⟩ := mem_offsets_worker ratEnv _ hr0 8
    refine ⟨0, by decide, ws, hws, hc.mpr ⟨0, by simp, 2, by norm_num [wrapSample], ?_⟩⟩
    unfold pixelWrites
    rw [mem_offsets_storePixel]
    left
    norm_num [pixelPos, wrapSample]
  refine ⟨res, hres, hlen, hoff, ?_⟩
  intro l m hl
  unfold DrawResult.offsets at hoff
  obtain ⟨w, hw, hw8⟩ := List.mem_map.mp hoff
  rw [hlen]
  exact runStores_overflow 8 l m ⟨w, (interleaving_mem _ _ hl w).mpr hw, by omega⟩

end Fractus
